import Mathlib

/-
Verification of the weak-reference and finalization pool of the golua
runtime (runtime/internal/weakref/weakref.go) against its specification.

The Go source is shallowly embedded as follows.

* A Go interface value is modelled by its two machine words: the type word
  and the data word (the source type `wiface [2]uintptr`).  Casting an
  interface to a `wiface` and back (`getwiface` / `wiface.iface`) is the
  identity in the model, so values simply ARE `wiface` records.
* `runtime.SetFinalizer(v, f)` is modelled by an `armed` component of the
  pool state holding the wifaces that currently have a Go finalizer set;
  the host GC may invoke the pool's `addPendingGC` callback only on an
  armed value, and arming is consumed when the callback runs (Go runs a
  finalizer at most once per `SetFinalizer` call).
* The `weakrefs map[uintptr]*weakRef` registry is modelled by an
  association list from identity token to an index into a store `refs` of
  all `weakRef` records ever allocated; `*weakRef` sharing (a caller can
  hold a weak ref after it left the registry) is sharing of the index.
* `sort.Sort(sortabelVals)` with `Less i j := vs[i].order > vs[j].order`
  sorts by descending order; the model uses an insertion sort and the
  theorems state only what `sort.Sort` guarantees: the result is a
  permutation of the input, pairwise non-ascending in `order`.
-/

/-- The two words of a Go interface value: `w[0]` the type word, `w[1]` the
data word (source type `wiface [2]uintptr`). -/
structure wiface where
  typeWord : Nat
  dataWord : Nat
deriving DecidableEq

/-- Source `func (w wiface) id() uintptr { return w[1] }`: the identity
token is the data word alone; the type word is discarded. -/
def wiface.id (w : wiface) : Nat := w.dataWord

/-- Source `wrStatus`: the three states of a weak ref. -/
inductive wrStatus where
  | wrAlive
  | wrDead
  | wrResurrected
deriving DecidableEq

/-- Source `weakRef`: the per-object weak handle (the `pool` back pointer is
implicit, there being a single pool in the model). -/
structure weakRef where
  w : wiface
  markOrder : Nat
  status : wrStatus
deriving DecidableEq

/-- Source `orderedVal`: a value paired with the mark order it had when it
was enqueued.  Generic in the value type so that the spec-modelled flagged
pool can reuse it. -/
structure orderedVal (α : Type) where
  val : α
  order : Nat
deriving DecidableEq

/-- Source `sortabelVals.vals`: forget the orders. -/
def vals {α : Type} (l : List (orderedVal α)) : List α :=
  l.map (fun ov => ov.val)

/-
Association-list model of the Go map `map[uintptr]*weakRef` (and of the
spec pool's registry): lookup finds the first entry with the given key,
delete removes every entry with the key.  The pool only inserts a key when
lookup fails, so keys stay pairwise distinct.
-/

/-- Lookup in the registry association list. -/
def lookupId {α : Type} : List (Nat × α) → Nat → Option α
  | [], _ => none
  | (k, r) :: rest, t => if k = t then some r else lookupId rest t

/-- Source `delete(p.weakrefs, id)`. -/
def deleteId {α : Type} : List (Nat × α) → Nat → List (Nat × α)
  | [], _ => []
  | e :: rest, t => if e.1 = t then deleteId rest t else e :: deleteId rest t

theorem lookupId_deleteId_self {α : Type} (m : List (Nat × α)) (t : Nat) :
    lookupId (deleteId m t) t = none := by
  induction m with
  | nil => rfl
  | cons e rest ih =>
      by_cases h : e.1 = t
      · simpa [deleteId, h] using ih
      · simpa [deleteId, lookupId, h] using ih

theorem lookupId_deleteId_ne {α : Type} (m : List (Nat × α)) (t t' : Nat)
    (h : t' ≠ t) : lookupId (deleteId m t) t' = lookupId m t' := by
  induction m with
  | nil => rfl
  | cons e rest ih =>
      by_cases he : e.1 = t
      · have h2 : ¬ e.1 = t' := by rw [he]; intro hc; exact h hc.symm
        simp [deleteId, he, lookupId, h2, ih, h.symm]
      · by_cases he' : e.1 = t'
        · simp [deleteId, he, lookupId, he', h]
        · simp [deleteId, he, lookupId, he', ih]

theorem lookupId_eq_none_iff {α : Type} (m : List (Nat × α)) (t : Nat) :
    lookupId m t = none ↔ ∀ e ∈ m, e.1 ≠ t := by
  induction m with
  | nil => simp [lookupId]
  | cons e rest ih =>
      by_cases h : e.1 = t
      · simp [lookupId, h]
      · simp [lookupId, h, ih]

theorem lookupId_mem {α : Type} (m : List (Nat × α)) (t : Nat) (r : α)
    (h : lookupId m t = some r) : (t, r) ∈ m := by
  induction m with
  | nil => simp [lookupId] at h
  | cons e rest ih =>
      obtain ⟨k, v⟩ := e
      by_cases he : k = t
      · simp only [lookupId, if_pos he] at h
        have hv : v = r := by simpa using h
        subst hv
        subst he
        exact List.mem_cons_self _ _
      · simp only [lookupId, if_neg he] at h
        exact List.mem_cons_of_mem _ (ih h)

/-
List-indexing helpers: the `refs` store is indexed with `List.getD` and
updated with `List.set`.
-/

theorem getD_append_lt {α : Type} (l l' : List α) (d : α) (i : Nat)
    (h : i < l.length) : (l ++ l').getD i d = l.getD i d := by
  induction l generalizing i with
  | nil => simp at h
  | cons a rest ih =>
      cases i with
      | zero => rfl
      | succ j =>
          simp only [List.cons_append, List.getD_cons_succ]
          exact ih j (by simpa using h)

theorem getD_append_len {α : Type} (l : List α) (x d : α) :
    (l ++ [x]).getD l.length d = x := by
  induction l with
  | nil => rfl
  | cons a rest ih => simp [ih]

theorem getD_set_eq {α : Type} (l : List α) (i : Nat) (x d : α)
    (h : i < l.length) : (l.set i x).getD i d = x := by
  induction l generalizing i with
  | nil => simp at h
  | cons a rest ih =>
      cases i with
      | zero => rfl
      | succ j =>
          simp only [List.set_cons_succ, List.getD_cons_succ]
          exact ih j (by simpa using h)

theorem getD_set_ne {α : Type} (l : List α) (i j : Nat) (x d : α)
    (h : i ≠ j) : (l.set i x).getD j d = l.getD j d := by
  induction l generalizing i j with
  | nil => simp [List.set]
  | cons a rest ih =>
      cases i with
      | zero =>
          cases j with
          | zero => exact absurd rfl h
          | succ k => rfl
      | succ i' =>
          cases j with
          | zero => rfl
          | succ k =>
              simp only [List.set_cons_succ, List.getD_cons_succ]
              exact ih i' k (fun hc => h (by simp [hc]))

theorem set_of_length_le {α : Type} (l : List α) (i : Nat) (x : α)
    (h : l.length ≤ i) : l.set i x = l := by
  induction l generalizing i with
  | nil => simp
  | cons a rest ih =>
      cases i with
      | zero => simp at h
      | succ j => simp [List.set, ih j (by simpa using h)]

/-
Descending sort: the model of `sort.Sort(sortabelVals(...))` where
`Less i j := vs[i].order > vs[j].order`.
-/

/-- Insert an element into a list that is sorted by descending order. -/
def insertDesc {α : Type} (a : orderedVal α) :
    List (orderedVal α) → List (orderedVal α)
  | [] => [a]
  | b :: rest => if b.order ≤ a.order then a :: b :: rest else b :: insertDesc a rest

/-- Sort by descending `order` (model of `sort.Sort` with the source's
`sortabelVals.Less`). -/
def sortDesc {α : Type} : List (orderedVal α) → List (orderedVal α)
  | [] => []
  | a :: rest => insertDesc a (sortDesc rest)

theorem insertDesc_perm {α : Type} (a : orderedVal α) (l : List (orderedVal α)) :
    (insertDesc a l).Perm (a :: l) := by
  induction l with
  | nil => simp [insertDesc]
  | cons b rest ih =>
      by_cases h : b.order ≤ a.order
      · simp [insertDesc, h]
      · simp only [insertDesc, if_neg h]
        exact (ih.cons b).trans (List.Perm.swap a b rest)

theorem sortDesc_perm {α : Type} (l : List (orderedVal α)) :
    (sortDesc l).Perm l := by
  induction l with
  | nil => simp [sortDesc]
  | cons a rest ih => exact (insertDesc_perm a (sortDesc rest)).trans (ih.cons a)

theorem insertDesc_pairwise {α : Type} (a : orderedVal α) (l : List (orderedVal α))
    (h : l.Pairwise (fun x y => y.order ≤ x.order)) :
    (insertDesc a l).Pairwise (fun x y => y.order ≤ x.order) := by
  induction l with
  | nil => simp [insertDesc]
  | cons b rest ih =>
      rcases List.pairwise_cons.mp h with ⟨hb, hrest⟩
      by_cases hba : b.order ≤ a.order
      · rw [insertDesc, if_pos hba]
        refine List.pairwise_cons.mpr ⟨?_, h⟩
        intro y hy
        rcases List.mem_cons.mp hy with hy | hy
        · exact hy ▸ hba
        · exact le_trans (hb y hy) hba
      · rw [insertDesc, if_neg hba]
        refine List.pairwise_cons.mpr ⟨?_, ih hrest⟩
        intro y hy
        have := (insertDesc_perm a rest).mem_iff.mp hy
        rcases List.mem_cons.mp this with hy | hy
        · exact hy ▸ le_of_not_le hba
        · exact hb y hy

theorem sortDesc_pairwise {α : Type} (l : List (orderedVal α)) :
    (sortDesc l).Pairwise (fun x y => y.order ≤ x.order) := by
  induction l with
  | nil => simp [sortDesc]
  | cons a rest ih => exact insertDesc_pairwise a (sortDesc rest) ih

/-- When the orders in the input are pairwise distinct, the descending sort
is strictly descending. -/
theorem sortDesc_pairwise_strict {α : Type} (l : List (orderedVal α))
    (h : l.Pairwise (fun x y => x.order ≠ y.order)) :
    (sortDesc l).Pairwise (fun x y => y.order < x.order) := by
  have hne : (sortDesc l).Pairwise (fun x y => x.order ≠ y.order) :=
    ((sortDesc_perm l).pairwise_iff (fun hxy hc => hxy hc.symm)).mpr h
  have hle := sortDesc_pairwise l
  have := List.Pairwise.and hle hne
  exact this.imp (fun hxy => lt_of_le_of_ne hxy.1 (fun hc => hxy.2 hc.symm))

/-
The UnsafePool state (source `UnsafePool` plus the modelled host-runtime
`SetFinalizer` arming).
-/

/-- Default record returned when indexing `refs` out of range; never hit in
well-formed states. -/
def defaultRef : weakRef :=
  { w := { typeWord := 0, dataWord := 0 }, markOrder := 0, status := wrStatus.wrAlive }

/-- Source `UnsafePool`: `weakrefs` maps an identity token to the index of
its `weakRef` in the store `refs`; `pending` are the values pending Lua
finalization; `lastMarkOrder` sorts values by reverse order of mark.
`armed` models which values currently have a Go finalizer set via
`runtime.SetFinalizer`. -/
structure UnsafePool where
  refs : List weakRef
  weakrefs : List (Nat × Nat)
  armed : List wiface
  pending : List (orderedVal wiface)
  lastMarkOrder : Nat
deriving DecidableEq

/-- Source `NewUnsafePool`. -/
def NewUnsafePool : UnsafePool :=
  { refs := [], weakrefs := [], armed := [], pending := [], lastMarkOrder := 0 }

/-- Dereference a weak-ref index in the store. -/
def getRef (s : UnsafePool) (i : Nat) : weakRef :=
  s.refs.getD i defaultRef

/-- Whether a value (identified by its data word) has a Go finalizer set. -/
def isArmed (a : List wiface) (v : wiface) : Bool :=
  a.any (fun w => w.dataWord = v.dataWord)

/-- Model of `runtime.SetFinalizer(iface, p.addPendingGC)`. -/
def armWiface (a : List wiface) (v : wiface) : List wiface :=
  if isArmed a v then a else v :: a

/-- Model of `runtime.SetFinalizer(iface, nil)` and of the Go runtime
consuming the arming when it runs the finalizer. -/
def disarmWiface (a : List wiface) (v : wiface) : List wiface :=
  a.filter (fun w => w.dataWord ≠ v.dataWord)

/-- Source `UnsafePool.get`: return the index of the canonical weak ref for
`v`, creating (and arming a Go finalizer for) one if absent.  `Get` is the
same function plus locking. -/
def UnsafePool.get (s : UnsafePool) (v : wiface) : Nat × UnsafePool :=
  match lookupId s.weakrefs (wiface.id v) with
  | some i => (i, s)
  | none =>
      (s.refs.length,
       { s with
         refs := s.refs ++ [{ w := v, markOrder := 0, status := wrStatus.wrAlive }],
         weakrefs := (wiface.id v, s.refs.length) :: s.weakrefs,
         armed := armWiface s.armed v })

/-- The assignment `p.get(iface).markOrder = p.lastMarkOrder` of `Mark`. -/
def setMarkOrder (r : Nat × UnsafePool) (n : Nat) : UnsafePool :=
  { r.2 with refs := r.2.refs.set r.1 { getRef r.2 r.1 with markOrder := n } }

/-- Source `UnsafePool.Mark` (the implementation takes no flags): increment
`lastMarkOrder` and assign it as the value's mark order, creating the weak
ref if needed. -/
def UnsafePool.Mark (s : UnsafePool) (v : wiface) : UnsafePool :=
  setMarkOrder (UnsafePool.get { s with lastMarkOrder := s.lastMarkOrder + 1 } v)
    (s.lastMarkOrder + 1)

/-- Modelled from the spec: the pre-finalization hook `runPrefinalizers` is
called by both extraction methods but is not among the provided sources;
per the spec it must preserve the order (hence the elements) of the
extracted list, so it is modelled as the identity. -/
def runPrefinalizers (l : List wiface) : List wiface := l

/-- Source `UnsafePool.ExtractDeadMarked` (the `ExtractPendingFinalize` of
the interface): return the pending values sorted by descending mark order
and clear the pending queue. -/
def UnsafePool.ExtractDeadMarked (s : UnsafePool) : List wiface × UnsafePool :=
  if s.pending = [] then ([], s)
  else (runPrefinalizers (vals (sortDesc s.pending)), { s with pending := [] })

/-- The loop body of `ExtractAllMarked`: walk the registry entries; every
ref with a positive mark order contributes its value and mark order to the
accumulator, has its mark order cleared, and has its Go finalizer removed. -/
def extractAllLoop (entries : List (Nat × Nat)) (refs : List weakRef)
    (armed : List wiface) (acc : List (orderedVal wiface)) :
    List (orderedVal wiface) × List weakRef × List wiface :=
  match entries with
  | [] => (acc, refs, armed)
  | e :: rest =>
      let r := refs.getD e.2 defaultRef
      if 0 < r.markOrder then
        extractAllLoop rest (refs.set e.2 { r with markOrder := 0 })
          (disarmWiface armed r.w) (acc ++ [{ val := r.w, order := r.markOrder }])
      else
        extractAllLoop rest refs armed acc

/-- Source `UnsafePool.ExtractAllMarked` (the `ExtractAllMarkedFinalize` of
the interface): return the pending values together with every still-marked
registered value, sorted by descending mark order; clear all marks, remove
their Go finalizers and drain the pending queue. -/
def UnsafePool.ExtractAllMarked (s : UnsafePool) : List wiface × UnsafePool :=
  let t := extractAllLoop s.weakrefs s.refs s.armed s.pending
  (runPrefinalizers (vals (sortDesc t.1)),
   { s with refs := t.2.1, armed := t.2.2, pending := [] })

/-- Source `UnsafePool.addPendingGC`: the finalizer the Go runtime runs on
a registered value when it becomes unreachable.  A spurious call (token
absent) does nothing; a resurrected ref goes back to alive and is re-armed;
otherwise the ref dies, the value is enqueued if marked, and the registry
entry is removed -- all in one step under the pool lock. -/
def UnsafePool.addPendingGC (s : UnsafePool) (v : wiface) : UnsafePool :=
  match lookupId s.weakrefs (wiface.id v) with
  | none => s
  | some i =>
      if (getRef s i).status = wrStatus.wrResurrected then
        { s with
          refs := s.refs.set i { getRef s i with status := wrStatus.wrAlive },
          armed := armWiface s.armed v }
      else
        { s with
          refs := s.refs.set i { getRef s i with status := wrStatus.wrDead },
          pending :=
            if 0 < (getRef s i).markOrder then
              s.pending ++ [{ val := v, order := (getRef s i).markOrder }]
            else s.pending,
          weakrefs := deleteId s.weakrefs (wiface.id v) }

/-- Source `weakRef.Value` (on the ref at index `i` of the store): a dead
ref yields nothing; otherwise the ref becomes resurrected and the value is
reconstructed from the stored wiface. -/
def UnsafePool.Value (s : UnsafePool) (i : Nat) : Option wiface × UnsafePool :=
  if (getRef s i).status = wrStatus.wrDead then (none, s)
  else (some (getRef s i).w,
    { s with refs := s.refs.set i { getRef s i with status := wrStatus.wrResurrected } })

/-
Trace semantics: the events the runtime and the host GC can interleave.
`gcReclaim v` models the host GC reclaiming `v`: it may only fire for a
value with an armed finalizer, consumes the arming, and runs the pool's
`addPendingGC` callback.
-/

/-- An externally observable event on the pool. -/
inductive Event where
  | get (v : wiface)
  | mark (v : wiface)
  | valueCall (i : Nat)
  | gcReclaim (v : wiface)
  | extractDead
  | extractAll
deriving DecidableEq

/-- One step of the pool under an event. -/
def step (s : UnsafePool) : Event → UnsafePool
  | Event.get v => (s.get v).2
  | Event.mark v => s.Mark v
  | Event.valueCall i => (s.Value i).2
  | Event.gcReclaim v =>
      if isArmed s.armed v then
        UnsafePool.addPendingGC { s with armed := disarmWiface s.armed v } v
      else s
  | Event.extractDead => s.ExtractDeadMarked.2
  | Event.extractAll => s.ExtractAllMarked.2

/-- Run a list of events. -/
def run (s : UnsafePool) : List Event → UnsafePool
  | [] => s
  | e :: es => run (step s e) es

/-- The pending entries appended by each step of a trace (used to state
that an extraction returns only values that arrived since the last one). -/
def reclaimedMarked (s : UnsafePool) : List Event → List (orderedVal wiface)
  | [] => []
  | e :: es =>
      ((step s e).pending.drop s.pending.length) ++ reclaimedMarked (step s e) es

/-- A trace containing no extraction event. -/
def noExtract (es : List Event) : Prop :=
  ∀ e ∈ es, e ≠ Event.extractDead ∧ e ≠ Event.extractAll

/-- The values an extraction event returns in a given state. -/
def eventOutput (s : UnsafePool) : Event → List wiface
  | Event.extractDead => s.ExtractDeadMarked.1
  | Event.extractAll => s.ExtractAllMarked.1
  | _ => []

/-- The values returned by the extraction events of a trace. -/
def traceOutputs (s : UnsafePool) : List Event → List wiface
  | [] => []
  | e :: es => eventOutput s e ++ traceOutputs (step s e) es

/-- Number of times a value with identity token `t` is enqueued onto the
pending queue along a trace. -/
def enqueueCount (t : Nat) (s : UnsafePool) : List Event → Nat
  | [] => 0
  | e :: es =>
      ((step s e).pending.drop s.pending.length).countP
        (fun ov => ov.val.dataWord == t) + enqueueCount t (step s e) es

/-- 1 when token `t` is currently registered, else 0. -/
def registered (t : Nat) (s : UnsafePool) : Nat :=
  match lookupId s.weakrefs t with
  | some _ => 1
  | none => 0

/-- Number of `get`/`mark` events for token `t` in a trace (the events that
can (re-)register `t`). -/
def getMarkCount (t : Nat) (es : List Event) : Nat :=
  es.countP (fun e =>
    match e with
    | Event.get v => v.dataWord == t
    | Event.mark v => v.dataWord == t
    | _ => false)

/-
The flagged pool.  The source interface file declares `Mark(v, flags)`,
`ExtractPendingFinalize` / `ExtractPendingRelease` and the `MarkFlags`
constants, but the flagged implementation of `Pool` is not among the
provided sources (the provided `UnsafePool` revision is flagless, with a
single pending queue).  The flagged behaviour is therefore modelled from
the spec, reusing the source's `MarkFlags` encoding.
-/

/-- Source `MarkFlags` constant `Finalize = 1 << 0`. -/
def Finalize : Nat := 1

/-- Source `MarkFlags` constant `Release = 1 << 1`. -/
def Release : Nat := 2

/-- Modelled from the spec: a script value as the flagged pool sees it; a
stable identity token plus whether the value has heap identity at all
(small integers, booleans and short interned strings do not). -/
structure SpecVal where
  token : Nat
  heapIdentity : Bool
deriving DecidableEq

/-- Modelled from the spec: the WeakRef record of the flagged pool
(§3): value handle, flag bitset, mark order and liveness status. -/
structure SpecRef where
  v : SpecVal
  flags : Nat
  markOrder : Nat
  status : wrStatus
deriving DecidableEq

/-- Modelled from the spec: the flagged pool state of §3 — registry,
the two pending queues, the monotonic mark counter, and the set of values
with an armed host-GC callback. -/
structure SpecPool where
  registry : List (Nat × SpecRef)
  pendingFinalize : List (orderedVal SpecVal)
  pendingRelease : List (orderedVal SpecVal)
  lastMarkOrder : Nat
  armed : List SpecVal
deriving DecidableEq

/-- Modelled from the spec: a fresh flagged pool. -/
def SpecPool.new : SpecPool :=
  { registry := [], pendingFinalize := [], pendingRelease := [],
    lastMarkOrder := 0, armed := [] }

/-- Modelled from the spec (§4.1, §7): `Mark(V, flags)` ensures V has a
WeakRef (as by `Get`), sets `mark_order := ++last_mark_order` and unions
`flags` into the handle's flags; on a value lacking heap identity it is a
silent no-op. -/
def SpecPool.Mark (s : SpecPool) (v : SpecVal) (flags : Nat) : SpecPool :=
  if v.heapIdentity = false then s
  else
    let last := s.lastMarkOrder + 1
    let r :=
      match lookupId s.registry v.token with
      | some r0 => { r0 with markOrder := last, flags := Nat.lor r0.flags flags }
      | none => { v := v, flags := flags, markOrder := last, status := wrStatus.wrAlive }
    { s with
      lastMarkOrder := last,
      registry := (v.token, r) :: deleteId s.registry v.token,
      armed := if v ∈ s.armed then s.armed else v :: s.armed }

/-- Modelled from the spec (§4.1, reclamation callback): absent token —
ignore; resurrected — back to alive and re-arm; otherwise die, push onto
the queue of each set flag, and leave the registry, atomically. -/
def SpecPool.reclaim (s : SpecPool) (v : SpecVal) : SpecPool :=
  match lookupId s.registry v.token with
  | none => s
  | some r =>
      if r.status = wrStatus.wrResurrected then
        { s with
          registry := (v.token, { r with status := wrStatus.wrAlive }) ::
            deleteId s.registry v.token,
          armed := if v ∈ s.armed then s.armed else v :: s.armed }
      else
        { s with
          pendingFinalize :=
            if Nat.land r.flags Finalize ≠ 0 then
              s.pendingFinalize ++ [{ val := v, order := r.markOrder }]
            else s.pendingFinalize,
          pendingRelease :=
            if Nat.land r.flags Release ≠ 0 then
              s.pendingRelease ++ [{ val := v, order := r.markOrder }]
            else s.pendingRelease,
          registry := deleteId s.registry v.token }

/-- Modelled from the spec: `ExtractPendingFinalize` returns the values of
`pending_finalize` sorted by descending mark order and clears the queue. -/
def SpecPool.ExtractPendingFinalize (s : SpecPool) : List SpecVal × SpecPool :=
  (vals (sortDesc s.pendingFinalize), { s with pendingFinalize := [] })

/-- Modelled from the spec: `ExtractPendingRelease`, symmetric. -/
def SpecPool.ExtractPendingRelease (s : SpecPool) : List SpecVal × SpecPool :=
  (vals (sortDesc s.pendingRelease), { s with pendingRelease := [] })

/-
Well-formedness of a pool state: registry keys are pairwise distinct, every
registry entry points inside the store, at the token's own weak ref, and a
registered weak ref is never dead (invariant I2 of the spec).  It holds in
the initial state and is preserved by every event.
-/

/-- Pairwise strengthening using membership. -/
theorem pairwise_imp_mem {α : Type} {R S : α → α → Prop} {l : List α}
    (h : ∀ a b, a ∈ l → b ∈ l → R a b → S a b) (hp : l.Pairwise R) :
    l.Pairwise S := by
  induction l with
  | nil => exact List.Pairwise.nil
  | cons x rest ih =>
      rcases List.pairwise_cons.mp hp with ⟨hx, hrest⟩
      refine List.pairwise_cons.mpr ⟨?_, ?_⟩
      · intro y hy
        exact h x y (List.mem_cons_self _ _) (List.mem_cons_of_mem _ hy) (hx y hy)
      · exact ih (fun a b ha hb => h a b (List.mem_cons_of_mem _ ha)
          (List.mem_cons_of_mem _ hb)) hrest

theorem deleteId_sublist {α : Type} (m : List (Nat × α)) (t : Nat) :
    (deleteId m t).Sublist m := by
  induction m with
  | nil => simp [deleteId]
  | cons e rest ih =>
      by_cases h : e.1 = t
      · rw [deleteId, if_pos h]
        exact ih.cons e
      · rw [deleteId, if_neg h]
        exact ih.cons₂ e

theorem mem_deleteId {α : Type} {m : List (Nat × α)} {t : Nat} {e : Nat × α}
    (h : e ∈ deleteId m t) : e ∈ m ∧ e.1 ≠ t := by
  induction m with
  | nil => simp [deleteId] at h
  | cons x rest ih =>
      by_cases hx : x.1 = t
      · rw [deleteId, if_pos hx] at h
        exact ⟨List.mem_cons_of_mem _ (ih h).1, (ih h).2⟩
      · rw [deleteId, if_neg hx] at h
        rcases List.mem_cons.mp h with h | h
        · exact ⟨h ▸ List.mem_cons_self _ _, h ▸ hx⟩
        · exact ⟨List.mem_cons_of_mem _ (ih h).1, (ih h).2⟩

/-- Well-formedness of a pool state. -/
@[reducible] def wf (s : UnsafePool) : Prop :=
  s.weakrefs.Pairwise (fun a b => a.1 ≠ b.1) ∧
  ∀ e ∈ s.weakrefs, e.2 < s.refs.length ∧
    (getRef s e.2).w.dataWord = e.1 ∧ (getRef s e.2).status ≠ wrStatus.wrDead

theorem wf_init : wf NewUnsafePool := by
  constructor
  · exact List.Pairwise.nil
  · intro e he
    simp [NewUnsafePool] at he

/-- In a well-formed state, entries with distinct keys have distinct store
indices (the registry is injective into the store). -/
theorem wf_index_ne {s : UnsafePool} (hwf : wf s) {a b : Nat × Nat}
    (ha : a ∈ s.weakrefs) (hb : b ∈ s.weakrefs) (hab : a.1 ≠ b.1) :
    a.2 ≠ b.2 := by
  intro hc
  rcases hwf.2 a ha with ⟨-, hwa, -⟩
  rcases hwf.2 b hb with ⟨-, hwb, -⟩
  exact hab (hwa ▸ hc ▸ hwb)

theorem wf_pairwise_idx {s : UnsafePool} (hwf : wf s) :
    s.weakrefs.Pairwise (fun a b => a.2 ≠ b.2) :=
  pairwise_imp_mem (fun _ _ ha hb hr => wf_index_ne hwf ha hb hr) hwf.1

/-
Properties of the `ExtractAllMarked` loop.
-/

theorem extractAllLoop_length (entries : List (Nat × Nat)) (refs : List weakRef)
    (armed : List wiface) (acc : List (orderedVal wiface)) :
    (extractAllLoop entries refs armed acc).2.1.length = refs.length := by
  induction entries generalizing refs armed acc with
  | nil => rfl
  | cons e rest ih =>
      rw [extractAllLoop]
      by_cases h : 0 < (refs.getD e.2 defaultRef).markOrder
      · rw [if_pos h, ih]
        exact List.length_set _ _ _
      · rw [if_neg h, ih]

/-- Clearing a mark order at one index changes neither the stored wiface
nor the status at any index, and never increases a mark order. -/
theorem getD_set_clearMark (refs : List weakRef) (i j : Nat) :
    ((refs.set i { refs.getD i defaultRef with markOrder := 0 }).getD j defaultRef).w
        = (refs.getD j defaultRef).w ∧
    ((refs.set i { refs.getD i defaultRef with markOrder := 0 }).getD j defaultRef).status
        = (refs.getD j defaultRef).status ∧
    ((refs.set i { refs.getD i defaultRef with markOrder := 0 }).getD j defaultRef).markOrder
        ≤ (refs.getD j defaultRef).markOrder := by
  by_cases hlen : i < refs.length
  · by_cases hij : i = j
    · subst hij
      rw [getD_set_eq _ _ _ _ hlen]
      exact ⟨rfl, rfl, Nat.zero_le _⟩
    · rw [getD_set_ne _ _ _ _ _ hij]
      exact ⟨rfl, rfl, Nat.le_refl _⟩
  · rw [set_of_length_le _ _ _ (Nat.le_of_not_lt hlen)]
    exact ⟨rfl, rfl, Nat.le_refl _⟩

theorem extractAllLoop_refs (entries : List (Nat × Nat)) (refs : List weakRef)
    (armed : List wiface) (acc : List (orderedVal wiface)) (j : Nat) :
    ((extractAllLoop entries refs armed acc).2.1.getD j defaultRef).w
        = (refs.getD j defaultRef).w ∧
    ((extractAllLoop entries refs armed acc).2.1.getD j defaultRef).status
        = (refs.getD j defaultRef).status ∧
    ((extractAllLoop entries refs armed acc).2.1.getD j defaultRef).markOrder
        ≤ (refs.getD j defaultRef).markOrder := by
  induction entries generalizing refs armed acc with
  | nil => exact ⟨rfl, rfl, Nat.le_refl _⟩
  | cons e rest ih =>
      rw [extractAllLoop]
      by_cases h : 0 < (refs.getD e.2 defaultRef).markOrder
      · rw [if_pos h]
        rcases ih (refs.set e.2 { refs.getD e.2 defaultRef with markOrder := 0 })
          (disarmWiface armed (refs.getD e.2 defaultRef).w)
          (acc ++ [{ val := (refs.getD e.2 defaultRef).w,
                     order := (refs.getD e.2 defaultRef).markOrder }]) with ⟨hw, hst, hmk⟩
        rcases getD_set_clearMark refs e.2 j with ⟨gw, gst, gmk⟩
        exact ⟨hw.trans gw, hst.trans gst, Nat.le_trans hmk gmk⟩
      · rw [if_neg h]
        exact ih refs armed acc

theorem extractAllLoop_zeroes (entries : List (Nat × Nat)) (refs : List weakRef)
    (armed : List wiface) (acc : List (orderedVal wiface)) :
    ∀ e ∈ entries,
      ((extractAllLoop entries refs armed acc).2.1.getD e.2 defaultRef).markOrder = 0 := by
  induction entries generalizing refs armed acc with
  | nil => intro e he; simp at he
  | cons e0 rest ih =>
      intro e he
      rw [extractAllLoop]
      by_cases h : 0 < (refs.getD e0.2 defaultRef).markOrder
      · rw [if_pos h]
        rcases List.mem_cons.mp he with he | he
        · subst he
          have hlen : e.2 < refs.length := by
            by_contra hc
            rw [List.getD_eq_default _ _ (Nat.le_of_not_lt hc)] at h
            simp [defaultRef] at h
          have hset : ((refs.set e.2 { refs.getD e.2 defaultRef with
              markOrder := 0 }).getD e.2 defaultRef).markOrder = 0 := by
            rw [getD_set_eq _ _ _ _ hlen]
          have hle := (extractAllLoop_refs rest
            (refs.set e.2 { refs.getD e.2 defaultRef with markOrder := 0 })
            (disarmWiface armed (refs.getD e.2 defaultRef).w)
            (acc ++ [{ val := (refs.getD e.2 defaultRef).w,
                       order := (refs.getD e.2 defaultRef).markOrder }]) e.2).2.2
          rw [hset] at hle
          exact Nat.le_zero.mp hle
        · exact ih _ _ _ e he
      · rw [if_neg h]
        rcases List.mem_cons.mp he with he | he
        · subst he
          have h0 : (refs.getD e.2 defaultRef).markOrder = 0 :=
            Nat.eq_zero_of_not_pos h
          have hle := (extractAllLoop_refs rest refs armed acc e.2).2.2
          rw [h0] at hle
          exact Nat.le_zero.mp hle
        · exact ih refs armed acc e he

theorem extractAllLoop_acc_mem (entries : List (Nat × Nat)) (refs : List weakRef)
    (armed : List wiface) (acc : List (orderedVal wiface)) :
    ∀ ov ∈ acc, ov ∈ (extractAllLoop entries refs armed acc).1 := by
  induction entries generalizing refs armed acc with
  | nil => intro ov hov; exact hov
  | cons e0 rest ih =>
      intro ov hov
      rw [extractAllLoop]
      by_cases h : 0 < (refs.getD e0.2 defaultRef).markOrder
      · rw [if_pos h]
        exact ih _ _ _ ov (List.mem_append_left _ hov)
      · rw [if_neg h]
        exact ih _ _ _ ov hov

theorem extractAllLoop_sound (entries : List (Nat × Nat)) (refs : List weakRef)
    (armed : List wiface) (acc : List (orderedVal wiface)) :
    ∀ ov ∈ (extractAllLoop entries refs armed acc).1,
      ov ∈ acc ∨ ∃ e ∈ entries,
        ov.val = (refs.getD e.2 defaultRef).w ∧
        0 < (refs.getD e.2 defaultRef).markOrder := by
  induction entries generalizing refs armed acc with
  | nil => intro ov hov; exact Or.inl hov
  | cons e0 rest ih =>
      intro ov hov
      rw [extractAllLoop] at hov
      by_cases h : 0 < (refs.getD e0.2 defaultRef).markOrder
      · rw [if_pos h] at hov
        rcases ih _ _ _ ov hov with hin | ⟨e, he, hw, hmk⟩
        · rcases List.mem_append.mp hin with hin | hin
          · exact Or.inl hin
          · refine Or.inr ⟨e0, List.mem_cons_self _ _, ?_, h⟩
            have : ov = { val := (refs.getD e0.2 defaultRef).w,
                          order := (refs.getD e0.2 defaultRef).markOrder } := by
              simpa using hin
            rw [this]
        · rcases getD_set_clearMark refs e0.2 e.2 with ⟨gw, -, gmk⟩
          exact Or.inr ⟨e, List.mem_cons_of_mem _ he, hw.trans gw,
            Nat.lt_of_lt_of_le hmk gmk⟩
      · rw [if_neg h] at hov
        rcases ih _ _ _ ov hov with hin | ⟨e, he, hw, hmk⟩
        · exact Or.inl hin
        · exact Or.inr ⟨e, List.mem_cons_of_mem _ he, hw, hmk⟩

theorem extractAllLoop_complete (entries : List (Nat × Nat)) (refs : List weakRef)
    (armed : List wiface) (acc : List (orderedVal wiface))
    (hpw : entries.Pairwise (fun a b => a.2 ≠ b.2)) :
    ∀ e ∈ entries, 0 < (refs.getD e.2 defaultRef).markOrder →
      { val := (refs.getD e.2 defaultRef).w,
        order := (refs.getD e.2 defaultRef).markOrder }
        ∈ (extractAllLoop entries refs armed acc).1 := by
  induction entries generalizing refs armed acc with
  | nil => intro e he; simp at he
  | cons e0 rest ih =>
      rcases List.pairwise_cons.mp hpw with ⟨h0, hrest⟩
      intro e he hmk
      rw [extractAllLoop]
      rcases List.mem_cons.mp he with he | he
      · subst he
        rw [if_pos hmk]
        exact extractAllLoop_acc_mem _ _ _ _ _
          (List.mem_append_right _ (List.mem_singleton.mpr rfl))
      · by_cases h : 0 < (refs.getD e0.2 defaultRef).markOrder
        · rw [if_pos h]
          have hne : e0.2 ≠ e.2 := h0 e he
          have hunch : ((refs.set e0.2 { refs.getD e0.2 defaultRef with
              markOrder := 0 }).getD e.2 defaultRef) = refs.getD e.2 defaultRef :=
            getD_set_ne _ _ _ _ _ hne
          have := ih (refs.set e0.2 { refs.getD e0.2 defaultRef with markOrder := 0 })
            (disarmWiface armed (refs.getD e0.2 defaultRef).w)
            (acc ++ [{ val := (refs.getD e0.2 defaultRef).w,
                       order := (refs.getD e0.2 defaultRef).markOrder }])
            hrest e he (by rw [hunch]; exact hmk)
          rw [hunch] at this
          exact this
        · rw [if_neg h]
          exact ih refs armed acc hrest e he hmk

/-
Preservation of well-formedness by every operation.
-/

/-- Replacing the ref at index `i` with one that has the same wiface and a
status that is either unchanged or non-dead preserves well-formedness. -/
theorem wf_set {s : UnsafePool} (hwf : wf s) (i : Nat) (r' : weakRef)
    (hw : r'.w = (getRef s i).w)
    (hst : r'.status = (getRef s i).status ∨ r'.status ≠ wrStatus.wrDead) :
    wf { s with refs := s.refs.set i r' } := by
  constructor
  · exact hwf.1
  · intro e he
    rcases hwf.2 e he with ⟨hlen, hdw, hstat⟩
    refine ⟨by simpa [List.length_set] using hlen, ?_, ?_⟩
    · by_cases hij : i = e.2
      · subst hij
        simp only [getRef] at hdw ⊢
        rw [getD_set_eq _ _ _ _ hlen, hw]
        exact hdw
      · simp only [getRef] at hdw ⊢
        rw [getD_set_ne _ _ _ _ _ hij]
        exact hdw
    · by_cases hij : i = e.2
      · subst hij
        simp only [getRef] at hstat ⊢
        rw [getD_set_eq _ _ _ _ hlen]
        rcases hst with hst | hst
        · rw [hst]; exact hstat
        · exact hst
      · simp only [getRef] at hstat ⊢
        rw [getD_set_ne _ _ _ _ _ hij]
        exact hstat

theorem wf_get {s : UnsafePool} (v : wiface) (hwf : wf s) : wf (s.get v).2 := by
  rcases hl : lookupId s.weakrefs (wiface.id v) with _ | i
  · simp only [UnsafePool.get, hl]
    constructor
    · refine List.pairwise_cons.mpr ⟨?_, hwf.1⟩
      intro e he hc
      exact (lookupId_eq_none_iff _ _).mp hl e he hc.symm
    · intro e he
      rcases List.mem_cons.mp he with he | he
      · subst he
        refine ⟨by simp, ?_, ?_⟩
        · simp only [getRef]
          rw [getD_append_len]
          rfl
        · simp only [getRef]
          rw [getD_append_len]
          simp
      · rcases hwf.2 e he with ⟨hlen, hdw, hstat⟩
        refine ⟨lt_of_lt_of_le hlen (by simp), ?_, ?_⟩
        · simp only [getRef] at hdw ⊢
          rw [getD_append_lt _ _ _ _ hlen]
          exact hdw
        · simp only [getRef] at hstat ⊢
          rw [getD_append_lt _ _ _ _ hlen]
          exact hstat
  · simp only [UnsafePool.get, hl]
    exact hwf

theorem wf_Mark {s : UnsafePool} (v : wiface) (hwf : wf s) : wf (s.Mark v) := by
  have h1 : wf { s with lastMarkOrder := s.lastMarkOrder + 1 } := hwf
  have h2 := wf_get v h1
  exact wf_set h2 _ _ rfl (Or.inl rfl)

theorem wf_Value {s : UnsafePool} (i : Nat) (hwf : wf s) : wf (s.Value i).2 := by
  by_cases h : (getRef s i).status = wrStatus.wrDead
  · simp only [UnsafePool.Value, if_pos h]
    exact hwf
  · simp only [UnsafePool.Value, if_neg h]
    exact wf_set hwf _ _ rfl (Or.inr (by simp))

theorem wf_addPendingGC {s : UnsafePool} (v : wiface) (hwf : wf s) :
    wf (s.addPendingGC v) := by
  rcases hl : lookupId s.weakrefs (wiface.id v) with _ | i
  · simp only [UnsafePool.addPendingGC, hl]
    exact hwf
  · simp only [UnsafePool.addPendingGC, hl]
    by_cases h : (getRef s i).status = wrStatus.wrResurrected
    · rw [if_pos h]
      exact wf_set hwf _ _ rfl (Or.inr (by simp))
    · rw [if_neg h]
      have hmem : ((wiface.id v), i) ∈ s.weakrefs := lookupId_mem _ _ _ hl
      constructor
      · exact (hwf.1.sublist (deleteId_sublist _ _))
      · intro e he
        rcases mem_deleteId he with ⟨hein, hnev⟩
        rcases hwf.2 e hein with ⟨hlen, hdw, hstat⟩
        have hne : i ≠ e.2 :=
          wf_index_ne hwf hmem hein (fun hx => hnev hx.symm)
        refine ⟨by simpa [List.length_set] using hlen, ?_, ?_⟩
        · simp only [getRef] at hdw ⊢
          rw [getD_set_ne _ _ _ _ _ hne]
          exact hdw
        · simp only [getRef] at hstat ⊢
          rw [getD_set_ne _ _ _ _ _ hne]
          exact hstat

theorem wf_ExtractDeadMarked {s : UnsafePool} (hwf : wf s) :
    wf s.ExtractDeadMarked.2 := by
  by_cases h : s.pending = []
  · simp only [UnsafePool.ExtractDeadMarked, if_pos h]
    exact hwf
  · simp only [UnsafePool.ExtractDeadMarked, if_neg h]
    exact hwf

theorem wf_ExtractAllMarked {s : UnsafePool} (hwf : wf s) :
    wf s.ExtractAllMarked.2 := by
  constructor
  · exact hwf.1
  · intro e he
    rcases hwf.2 e he with ⟨hlen, hdw, hstat⟩
    refine ⟨?_, ?_, ?_⟩
    · simpa [UnsafePool.ExtractAllMarked, extractAllLoop_length] using hlen
    · simp only [UnsafePool.ExtractAllMarked, getRef] at hdw ⊢
      rw [(extractAllLoop_refs s.weakrefs s.refs s.armed s.pending e.2).1]
      exact hdw
    · simp only [UnsafePool.ExtractAllMarked, getRef] at hstat ⊢
      rw [(extractAllLoop_refs s.weakrefs s.refs s.armed s.pending e.2).2.1]
      exact hstat

theorem wf_step {s : UnsafePool} (e : Event) (hwf : wf s) : wf (step s e) := by
  cases e with
  | get v => exact wf_get v hwf
  | mark v => exact wf_Mark v hwf
  | valueCall i => exact wf_Value i hwf
  | gcReclaim v =>
      by_cases h : isArmed s.armed v = true
      · simp only [step, if_pos h]
        exact wf_addPendingGC v hwf
      · simp only [step, if_neg h]
        exact hwf
  | extractDead => exact wf_ExtractDeadMarked hwf
  | extractAll => exact wf_ExtractAllMarked hwf

theorem wf_run {s : UnsafePool} (es : List Event) (hwf : wf s) : wf (run s es) := by
  induction es generalizing s with
  | nil => exact hwf
  | cons e rest ih => exact ih (wf_step e hwf)

/-
Per-operation facts about the pending queue and the registry, used by the
trace-level theorems.
-/

theorem get_pending (s : UnsafePool) (v : wiface) :
    (s.get v).2.pending = s.pending := by
  rcases hl : lookupId s.weakrefs (wiface.id v) with _ | i <;>
    simp only [UnsafePool.get, hl]

theorem get_lookup_other (s : UnsafePool) (v : wiface) (t : Nat)
    (h : t ≠ wiface.id v) :
    lookupId (s.get v).2.weakrefs t = lookupId s.weakrefs t := by
  rcases hl : lookupId s.weakrefs (wiface.id v) with _ | i
  · simp only [UnsafePool.get, hl, lookupId]
    rw [if_neg (fun hc => h hc.symm)]
  · simp only [UnsafePool.get, hl]

theorem Mark_pending (s : UnsafePool) (v : wiface) :
    (s.Mark v).pending = s.pending :=
  get_pending { s with lastMarkOrder := s.lastMarkOrder + 1 } v

theorem Mark_lookup_other (s : UnsafePool) (v : wiface) (t : Nat)
    (h : t ≠ wiface.id v) :
    lookupId (s.Mark v).weakrefs t = lookupId s.weakrefs t :=
  get_lookup_other { s with lastMarkOrder := s.lastMarkOrder + 1 } v t h

theorem Value_pending (s : UnsafePool) (i : Nat) :
    (s.Value i).2.pending = s.pending := by
  by_cases h : (getRef s i).status = wrStatus.wrDead
  · simp only [UnsafePool.Value, if_pos h]
  · simp only [UnsafePool.Value, if_neg h]

theorem Value_weakrefs (s : UnsafePool) (i : Nat) :
    (s.Value i).2.weakrefs = s.weakrefs := by
  by_cases h : (getRef s i).status = wrStatus.wrDead
  · simp only [UnsafePool.Value, if_pos h]
  · simp only [UnsafePool.Value, if_neg h]

/-- The reclamation callback either leaves the pending queue and the
registry alone, or (the value was registered and unresurrected) removes
every registry entry of the value's token and appends at most the one
entry for the value -- in the same step. -/
theorem addPendingGC_cases (s : UnsafePool) (v : wiface) :
    ((s.addPendingGC v).pending = s.pending ∧
     (s.addPendingGC v).weakrefs = s.weakrefs) ∨
    ((∃ i, lookupId s.weakrefs (wiface.id v) = some i) ∧
     (s.addPendingGC v).weakrefs = deleteId s.weakrefs (wiface.id v) ∧
     ((s.addPendingGC v).pending = s.pending ∨
      ∃ n, (s.addPendingGC v).pending =
        s.pending ++ [{ val := v, order := n }])) := by
  rcases hl : lookupId s.weakrefs (wiface.id v) with _ | i
  · simp only [UnsafePool.addPendingGC, hl]
    exact Or.inl ⟨by trivial, by trivial⟩
  · simp only [UnsafePool.addPendingGC, hl]
    by_cases h : (getRef s i).status = wrStatus.wrResurrected
    · rw [if_pos h]
      exact Or.inl ⟨by trivial, by trivial⟩
    · rw [if_neg h]
      by_cases hm : 0 < (getRef s i).markOrder
      · exact Or.inr ⟨⟨i, rfl⟩, rfl, Or.inr ⟨(getRef s i).markOrder, by rw [if_pos hm]⟩⟩
      · exact Or.inr ⟨⟨i, rfl⟩, rfl, Or.inl (by rw [if_neg hm])⟩

theorem ExtractDeadMarked_pending (s : UnsafePool) :
    s.ExtractDeadMarked.2.pending = [] := by
  by_cases h : s.pending = []
  · simp only [UnsafePool.ExtractDeadMarked, if_pos h]
    exact h
  · simp only [UnsafePool.ExtractDeadMarked, if_neg h]

theorem ExtractDeadMarked_weakrefs (s : UnsafePool) :
    s.ExtractDeadMarked.2.weakrefs = s.weakrefs := by
  by_cases h : s.pending = []
  · simp only [UnsafePool.ExtractDeadMarked, if_pos h]
  · simp only [UnsafePool.ExtractDeadMarked, if_neg h]

theorem ExtractAllMarked_pending (s : UnsafePool) :
    s.ExtractAllMarked.2.pending = [] := rfl

theorem ExtractAllMarked_weakrefs (s : UnsafePool) :
    s.ExtractAllMarked.2.weakrefs = s.weakrefs := rfl

/-- A non-extraction step only ever appends to the pending queue. -/
theorem step_pending_extends (s : UnsafePool) (e : Event)
    (h1 : e ≠ Event.extractDead) (h2 : e ≠ Event.extractAll) :
    (step s e).pending = s.pending ++ ((step s e).pending.drop s.pending.length) := by
  have base : ∀ l2 : List (orderedVal wiface),
      (l2 = s.pending ∨ ∃ x, l2 = s.pending ++ [x]) →
      l2 = s.pending ++ l2.drop s.pending.length := by
    intro l2 h
    rcases h with h | ⟨x, h⟩ <;> subst h
    · rw [List.drop_length, List.append_nil]
    · rw [List.drop_left]
  cases e with
  | get v => exact base _ (Or.inl (by rw [step, get_pending]))
  | mark v => exact base _ (Or.inl (by rw [step, Mark_pending]))
  | valueCall i => exact base _ (Or.inl (by rw [step, Value_pending]))
  | gcReclaim v =>
      by_cases h : isArmed s.armed v = true
      · simp only [step, if_pos h]
        rcases addPendingGC_cases { s with armed := disarmWiface s.armed v } v with
          ⟨hp, -⟩ | ⟨-, -, hp | ⟨n, hp⟩⟩
        · exact base _ (Or.inl hp)
        · exact base _ (Or.inl hp)
        · exact base _ (Or.inr ⟨_, hp⟩)
      · simp only [step, if_neg h]
        exact base _ (Or.inl rfl)
  | extractDead => exact absurd rfl h1
  | extractAll => exact absurd rfl h2

/-- Along an extraction-free trace, the pending queue is the old pending
queue followed by exactly the entries enqueued by the trace's steps. -/
theorem run_pending_extends (s : UnsafePool) (es : List Event)
    (h : noExtract es) :
    (run s es).pending = s.pending ++ reclaimedMarked s es := by
  induction es generalizing s with
  | nil => simp [run, reclaimedMarked]
  | cons e rest ih =>
      have he := h e (List.mem_cons_self _ _)
      have hrest : noExtract rest := fun x hx => h x (List.mem_cons_of_mem _ hx)
      rw [run, reclaimedMarked, ih (step s e) hrest, ← List.append_assoc,
        ← step_pending_extends s e he.1 he.2]

/-
The enqueue-count bound: a value can be enqueued at most once per
registration, because the callback's enqueue removes the registry entry in
the same atomic step.
-/

theorem registered_le_one (t : Nat) (s : UnsafePool) : registered t s ≤ 1 := by
  unfold registered
  rcases lookupId s.weakrefs t with _ | i <;> simp

theorem get_lookup_self (s : UnsafePool) (v : wiface) :
    lookupId (s.get v).2.weakrefs (wiface.id v) = some (s.get v).1 := by
  rcases hl : lookupId s.weakrefs (wiface.id v) with _ | i
  · simp [UnsafePool.get, hl, lookupId]
  · simp [UnsafePool.get, hl]


theorem enqueue_step_bound (t : Nat) (s : UnsafePool) (e : Event) :
    ((step s e).pending.drop s.pending.length).countP
        (fun ov => ov.val.dataWord == t) + registered t (step s e)
      ≤ registered t s + getMarkCount t [e] := by
  have hro := registered_le_one t (step s e)
  have hso := registered_le_one t s
  cases e with
  | get v =>
      have hp : (step s (Event.get v)).pending = s.pending := get_pending s v
      rw [hp, List.drop_length, List.countP_nil]
      by_cases ht : t = wiface.id v
      · subst ht
        have hg : getMarkCount (wiface.id v) [Event.get v] = 1 := by
          simp [getMarkCount, wiface.id]
        omega
      · have hr : registered t (step s (Event.get v)) = registered t s := by
          unfold registered
          rw [show (step s (Event.get v)).weakrefs = (s.get v).2.weakrefs from rfl,
            get_lookup_other s v t ht]
        omega
  | mark v =>
      have hp : (step s (Event.mark v)).pending = s.pending := Mark_pending s v
      rw [hp, List.drop_length, List.countP_nil]
      by_cases ht : t = wiface.id v
      · subst ht
        have hg : getMarkCount (wiface.id v) [Event.mark v] = 1 := by
          simp [getMarkCount, wiface.id]
        omega
      · have hr : registered t (step s (Event.mark v)) = registered t s := by
          unfold registered
          rw [show (step s (Event.mark v)).weakrefs = (s.Mark v).weakrefs from rfl,
            Mark_lookup_other s v t ht]
        omega
  | valueCall i =>
      have hp : (step s (Event.valueCall i)).pending = s.pending := Value_pending s i
      rw [hp, List.drop_length, List.countP_nil]
      have hr : registered t (step s (Event.valueCall i)) = registered t s := by
        unfold registered
        rw [show (step s (Event.valueCall i)).weakrefs = (s.Value i).2.weakrefs from rfl,
          Value_weakrefs s i]
      omega
  | gcReclaim v =>
      have hg : getMarkCount t [Event.gcReclaim v] = 0 := by
        simp [getMarkCount]
      by_cases harm : isArmed s.armed v = true
      · have hstep : step s (Event.gcReclaim v) =
            UnsafePool.addPendingGC { s with armed := disarmWiface s.armed v } v := by
          simp [step, harm]
        rw [hstep] at hro ⊢
        rcases addPendingGC_cases { s with armed := disarmWiface s.armed v } v with
          ⟨hp, hw⟩ | ⟨⟨i, hi⟩, hw, hp⟩
        · have hp2 : (UnsafePool.addPendingGC
              { s with armed := disarmWiface s.armed v } v).pending = s.pending := hp
          have hw2 : (UnsafePool.addPendingGC
              { s with armed := disarmWiface s.armed v } v).weakrefs = s.weakrefs := hw
          rw [hp2, List.drop_length, List.countP_nil]
          have hr : registered t (UnsafePool.addPendingGC
              { s with armed := disarmWiface s.armed v } v) = registered t s := by
            unfold registered
            rw [hw2]
          omega
        · have hi2 : lookupId s.weakrefs (wiface.id v) = some i := hi
          have hw2 : (UnsafePool.addPendingGC
              { s with armed := disarmWiface s.armed v } v).weakrefs
                = deleteId s.weakrefs (wiface.id v) := hw
          have hp2 : (UnsafePool.addPendingGC
              { s with armed := disarmWiface s.armed v } v).pending = s.pending ∨
              ∃ n, (UnsafePool.addPendingGC
                { s with armed := disarmWiface s.armed v } v).pending
                  = s.pending ++ [{ val := v, order := n }] := hp
          by_cases ht : t = wiface.id v
          · have hr1 : registered t s = 1 := by
              unfold registered
              rw [ht, hi2]
            have hr0 : registered t (UnsafePool.addPendingGC
                { s with armed := disarmWiface s.armed v } v) = 0 := by
              unfold registered
              rw [hw2, ht, lookupId_deleteId_self]
            have hd : ((UnsafePool.addPendingGC
                { s with armed := disarmWiface s.armed v } v).pending.drop
                  s.pending.length).countP (fun ov => ov.val.dataWord == t) ≤ 1 := by
              rcases hp2 with hp2 | ⟨n, hp2⟩
              · rw [hp2, List.drop_length, List.countP_nil]
                omega
              · rw [hp2, List.drop_left]
                cases hbe : v.dataWord == t <;>
                  simp [List.countP_cons, List.countP_nil, hbe]
            omega
          · have hr : registered t (UnsafePool.addPendingGC
                { s with armed := disarmWiface s.armed v } v) = registered t s := by
              unfold registered
              rw [hw2, lookupId_deleteId_ne _ _ _ ht]
            have hbe : (v.dataWord == t) = false := by
              simp only [beq_eq_false_iff_ne, ne_eq]
              exact fun hc => ht hc.symm
            have hd : ((UnsafePool.addPendingGC
                { s with armed := disarmWiface s.armed v } v).pending.drop
                  s.pending.length).countP (fun ov => ov.val.dataWord == t) = 0 := by
              rcases hp2 with hp2 | ⟨n, hp2⟩
              · rw [hp2, List.drop_length, List.countP_nil]
              · rw [hp2, List.drop_left]
                simp [List.countP_cons, List.countP_nil, hbe]
            omega
      · have hstep : step s (Event.gcReclaim v) = s := by
          simp [step, harm]
        rw [hstep, List.drop_length, List.countP_nil]
        omega
  | extractDead =>
      have hp : (step s Event.extractDead).pending = [] := ExtractDeadMarked_pending s
      rw [hp, List.drop_nil, List.countP_nil]
      have hr : registered t (step s Event.extractDead) = registered t s := by
        unfold registered
        rw [show (step s Event.extractDead).weakrefs =
          s.ExtractDeadMarked.2.weakrefs from rfl, ExtractDeadMarked_weakrefs]
      omega
  | extractAll =>
      have hp : (step s Event.extractAll).pending = [] := rfl
      rw [hp, List.drop_nil, List.countP_nil]
      have hr : registered t (step s Event.extractAll) = registered t s := by
        unfold registered
        rw [show (step s Event.extractAll).weakrefs =
          s.ExtractAllMarked.2.weakrefs from rfl, ExtractAllMarked_weakrefs]
      omega

theorem getMarkCount_cons (t : Nat) (e : Event) (es : List Event) :
    getMarkCount t (e :: es) = getMarkCount t [e] + getMarkCount t es := by
  simp only [getMarkCount, List.countP_cons, List.countP_nil]
  omega

/-- Along any trace, the number of enqueues of a token is bounded by its
current registration (0 or 1) plus the number of `get`/`mark` events that
can re-register it. -/
theorem enqueueCount_le (t : Nat) (s : UnsafePool) (es : List Event) :
    enqueueCount t s es ≤ registered t s + getMarkCount t es := by
  induction es generalizing s with
  | nil => simp [enqueueCount]
  | cons e rest ih =>
      rw [enqueueCount, getMarkCount_cons]
      have h1 := enqueue_step_bound t s e
      have h2 := ih (step s e)
      omega

/-
Once a token carries no mark and sits in no pending entry, no extraction
can ever return it again unless it is re-marked.
-/

/-- The event is a `Mark` of the given token. -/
def marksTok (t : Nat) : Event → Prop
  | Event.mark v => wiface.id v = t
  | _ => False

/-- Token `t` carries no mark in the registry and appears in no pending
entry. -/
def cleanTok (t : Nat) (s : UnsafePool) : Prop :=
  (∀ e ∈ s.weakrefs, e.1 = t → (getRef s e.2).markOrder = 0) ∧
  (∀ ov ∈ s.pending, ov.val.dataWord ≠ t)

theorem ExtractDeadMarked_refs (s : UnsafePool) :
    s.ExtractDeadMarked.2.refs = s.refs := by
  by_cases h : s.pending = []
  · simp only [UnsafePool.ExtractDeadMarked, if_pos h]
  · simp only [UnsafePool.ExtractDeadMarked, if_neg h]

/-- Replacing the ref at one index with one of equal mark order preserves
token-cleanliness (registry and pending unchanged). -/
theorem cleanTok_of_set (t : Nat) (s s' : UnsafePool) (i : Nat) (r' : weakRef)
    (hw : s'.weakrefs = s.weakrefs) (hp : s'.pending = s.pending)
    (hre : s'.refs = s.refs.set i r')
    (hmk : r'.markOrder = (getRef s i).markOrder)
    (hc : cleanTok t s) : cleanTok t s' := by
  constructor
  · intro e he hkey
    rw [hw] at he
    have h0 := hc.1 e he hkey
    simp only [getRef, hre]
    by_cases hij : i = e.2
    · subst hij
      by_cases hlen : e.2 < s.refs.length
      · rw [getD_set_eq _ _ _ _ hlen, hmk]
        exact h0
      · rw [set_of_length_le _ _ _ (Nat.le_of_not_lt hlen)]
        exact h0
    · rw [getD_set_ne _ _ _ _ _ hij]
      exact h0
  · intro ov hov
    rw [hp] at hov
    exact hc.2 ov hov

theorem cleanTok_get (t : Nat) (s : UnsafePool) (v : wiface)
    (hwf : wf s) (hc : cleanTok t s) : cleanTok t (s.get v).2 := by
  rcases hl : lookupId s.weakrefs (wiface.id v) with _ | i
  · constructor
    · intro e he hkey
      simp only [UnsafePool.get, hl] at he ⊢
      rcases List.mem_cons.mp he with he | he
      · subst he
        simp only [getRef]
        rw [getD_append_len]
      · have hb := (hwf.2 e he).1
        have h0 := hc.1 e he hkey
        simp only [getRef] at h0 ⊢
        rw [getD_append_lt _ _ _ _ hb]
        exact h0
    · intro ov hov
      simp only [UnsafePool.get, hl] at hov
      exact hc.2 ov hov
  · simp only [UnsafePool.get, hl]
    exact hc

theorem cleanTok_Mark (t : Nat) (s : UnsafePool) (v : wiface)
    (hwf : wf s) (hne : wiface.id v ≠ t) (hc : cleanTok t s) :
    cleanTok t (s.Mark v) := by
  have hwf1 : wf { s with lastMarkOrder := s.lastMarkOrder + 1 } := hwf
  have hc1 : cleanTok t { s with lastMarkOrder := s.lastMarkOrder + 1 } := hc
  have hwf2 := wf_get v hwf1
  have hc2 := cleanTok_get t { s with lastMarkOrder := s.lastMarkOrder + 1 } v hwf1 hc1
  have hmem : (wiface.id v, (UnsafePool.get
      { s with lastMarkOrder := s.lastMarkOrder + 1 } v).1) ∈
      (UnsafePool.get { s with lastMarkOrder := s.lastMarkOrder + 1 } v).2.weakrefs :=
    lookupId_mem _ _ _ (get_lookup_self _ v)
  constructor
  · intro e he hkey
    have h0 := hc2.1 e he hkey
    have hij : (UnsafePool.get { s with lastMarkOrder := s.lastMarkOrder + 1 } v).1
        ≠ e.2 := by
      refine wf_index_ne hwf2 hmem he ?_
      rw [hkey]
      exact hne
    simp only [UnsafePool.Mark, setMarkOrder, getRef]
    rw [getD_set_ne _ _ _ _ _ hij]
    exact h0
  · intro ov hov
    simp only [UnsafePool.Mark, setMarkOrder] at hov
    exact hc2.2 ov hov

theorem cleanTok_Value (t : Nat) (s : UnsafePool) (i : Nat)
    (hc : cleanTok t s) : cleanTok t (s.Value i).2 := by
  by_cases h : (getRef s i).status = wrStatus.wrDead
  · simp only [UnsafePool.Value, if_pos h]
    exact hc
  · simp only [UnsafePool.Value, if_neg h]
    exact cleanTok_of_set t s _ i _ rfl rfl rfl rfl hc

theorem cleanTok_addPendingGC (t : Nat) (s : UnsafePool) (v : wiface)
    (hc : cleanTok t s) : cleanTok t (s.addPendingGC v) := by
  rcases hl : lookupId s.weakrefs (wiface.id v) with _ | i
  · simp only [UnsafePool.addPendingGC, hl]
    exact hc
  · simp only [UnsafePool.addPendingGC, hl]
    by_cases h : (getRef s i).status = wrStatus.wrResurrected
    · rw [if_pos h]
      exact cleanTok_of_set t s _ i _ rfl rfl rfl rfl hc
    · rw [if_neg h]
      have hmem := lookupId_mem _ _ _ hl
      constructor
      · intro e he hkey
        rcases mem_deleteId he with ⟨hein, -⟩
        have h0 := hc.1 e hein hkey
        simp only [getRef]
        by_cases hij : i = e.2
        · subst hij
          by_cases hlen : e.2 < s.refs.length
          · rw [getD_set_eq _ _ _ _ hlen]
            exact h0
          · rw [set_of_length_le _ _ _ (Nat.le_of_not_lt hlen)]
            exact h0
        · rw [getD_set_ne _ _ _ _ _ hij]
          exact h0
      · intro ov hov
        by_cases hvt : wiface.id v = t
        · have h0 : (getRef s i).markOrder = 0 := hc.1 _ hmem hvt
          rw [if_neg (by rw [h0]; exact Nat.lt_irrefl 0)] at hov
          exact hc.2 ov hov
        · by_cases hm : 0 < (getRef s i).markOrder
          · rw [if_pos hm] at hov
            rcases List.mem_append.mp hov with hov | hov
            · exact hc.2 ov hov
            · have : ov = { val := v, order := (getRef s i).markOrder } := by
                simpa using hov
              rw [this]
              exact hvt
          · rw [if_neg hm] at hov
            exact hc.2 ov hov

theorem cleanTok_ExtractDeadMarked (t : Nat) (s : UnsafePool)
    (hc : cleanTok t s) : cleanTok t s.ExtractDeadMarked.2 := by
  constructor
  · intro e he hkey
    rw [ExtractDeadMarked_weakrefs] at he
    have h0 := hc.1 e he hkey
    simp only [getRef, ExtractDeadMarked_refs]
    exact h0
  · intro ov hov
    rw [ExtractDeadMarked_pending] at hov
    simp at hov

theorem cleanTok_ExtractAllMarked (t : Nat) (s : UnsafePool)
    (hc : cleanTok t s) : cleanTok t s.ExtractAllMarked.2 := by
  constructor
  · intro e he hkey
    have h0 := hc.1 e he hkey
    have hle := (extractAllLoop_refs s.weakrefs s.refs s.armed s.pending e.2).2.2
    simp only [getRef, UnsafePool.ExtractAllMarked] at h0 hle ⊢
    rw [h0] at hle
    exact Nat.le_zero.mp hle
  · intro ov hov
    rw [ExtractAllMarked_pending] at hov
    simp at hov

theorem cleanTok_step (t : Nat) (s : UnsafePool) (e : Event)
    (hwf : wf s) (hm : ¬ marksTok t e) (hc : cleanTok t s) :
    cleanTok t (step s e) := by
  cases e with
  | get v => exact cleanTok_get t s v hwf hc
  | mark v => exact cleanTok_Mark t s v hwf (fun hx => hm hx) hc
  | valueCall i => exact cleanTok_Value t s i hc
  | gcReclaim v =>
      by_cases harm : isArmed s.armed v = true
      · simp only [step, if_pos harm]
        exact cleanTok_addPendingGC t { s with armed := disarmWiface s.armed v } v hc
      · simp only [step, if_neg harm]
        exact hc
  | extractDead => exact cleanTok_ExtractDeadMarked t s hc
  | extractAll => exact cleanTok_ExtractAllMarked t s hc

/-
What the extraction methods can return, in terms of the state they read.
-/

theorem mem_vals {α : Type} {l : List (orderedVal α)} {v : α} :
    v ∈ vals l ↔ ∃ ov ∈ l, ov.val = v := by
  simp [vals, List.mem_map]

theorem ExtractDeadMarked_out (s : UnsafePool) :
    ∀ v ∈ s.ExtractDeadMarked.1, ∃ ov ∈ s.pending, ov.val = v := by
  intro v hv
  by_cases h : s.pending = []
  · simp [UnsafePool.ExtractDeadMarked, if_pos h] at hv
  · simp only [UnsafePool.ExtractDeadMarked, if_neg h, runPrefinalizers] at hv
    rcases mem_vals.mp hv with ⟨ov, hov, hval⟩
    exact ⟨ov, (sortDesc_perm s.pending).mem_iff.mp hov, hval⟩

theorem ExtractAllMarked_out (s : UnsafePool) :
    ∀ v ∈ s.ExtractAllMarked.1,
      (∃ ov ∈ s.pending, ov.val = v) ∨
      ∃ e ∈ s.weakrefs, 0 < (getRef s e.2).markOrder ∧ (getRef s e.2).w = v := by
  intro v hv
  simp only [UnsafePool.ExtractAllMarked, runPrefinalizers] at hv
  rcases mem_vals.mp hv with ⟨ov, hov, hval⟩
  have hov2 := (sortDesc_perm _).mem_iff.mp hov
  rcases extractAllLoop_sound s.weakrefs s.refs s.armed s.pending ov hov2 with
    h | ⟨e, he, hw, hm⟩
  · exact Or.inl ⟨ov, h, hval⟩
  · refine Or.inr ⟨e, he, hm, ?_⟩
    rw [← hval, hw]
    rfl

theorem ExtractAllMarked_out_complete (s : UnsafePool) (hwf : wf s) :
    ∀ e ∈ s.weakrefs, 0 < (getRef s e.2).markOrder →
      (getRef s e.2).w ∈ s.ExtractAllMarked.1 := by
  intro e he hm
  have hmem := extractAllLoop_complete s.weakrefs s.refs s.armed s.pending
    (wf_pairwise_idx hwf) e he hm
  exact mem_vals.mpr ⟨_, (sortDesc_perm _).mem_iff.mpr hmem, rfl⟩

theorem ExtractAllMarked_out_pending (s : UnsafePool) :
    ∀ ov ∈ s.pending, ov.val ∈ s.ExtractAllMarked.1 := by
  intro ov hov
  have hmem := extractAllLoop_acc_mem s.weakrefs s.refs s.armed s.pending ov hov
  exact mem_vals.mpr ⟨ov, (sortDesc_perm _).mem_iff.mpr hmem, rfl⟩

/-- Once a token is clean, no extraction along any later trace returns a
value with that token, unless the trace re-marks it. -/
theorem traceOutputs_avoid (t : Nat) (s : UnsafePool) (es : List Event)
    (hwf : wf s) (hc : cleanTok t s) (hm : ∀ e ∈ es, ¬ marksTok t e) :
    ∀ v ∈ traceOutputs s es, v.dataWord ≠ t := by
  induction es generalizing s with
  | nil =>
      intro v hv
      simp [traceOutputs] at hv
  | cons e rest ih =>
      intro v hv
      rw [traceOutputs] at hv
      rcases List.mem_append.mp hv with hv | hv
      · cases e with
        | extractDead =>
            simp only [eventOutput] at hv
            rcases ExtractDeadMarked_out s v hv with ⟨ov, hov, hval⟩
            rw [← hval]
            exact hc.2 ov hov
        | extractAll =>
            simp only [eventOutput] at hv
            rcases ExtractAllMarked_out s v hv with ⟨ov, hov, hval⟩ | ⟨e2, he2, hm2, hval⟩
            · rw [← hval]
              exact hc.2 ov hov
            · rw [← hval]
              rcases hwf.2 e2 he2 with ⟨-, hdw, -⟩
              rw [hdw]
              intro hkey
              have h0 := hc.1 e2 he2 hkey
              rw [h0] at hm2
              exact Nat.lt_irrefl 0 hm2
        | get v2 => simp [eventOutput] at hv
        | mark v2 => simp [eventOutput] at hv
        | valueCall i => simp [eventOutput] at hv
        | gcReclaim v2 => simp [eventOutput] at hv
      · exact ih (step s e) (wf_step e hwf)
          (cleanTok_step t s e hwf (hm e (List.mem_cons_self _ _)) hc)
          (fun x hx => hm x (List.mem_cons_of_mem _ hx)) v hv

/-
Small supporting facts for the claim theorems.
-/

theorem isArmed_armWiface (a : List wiface) (v : wiface) :
    isArmed (armWiface a v) v = true := by
  unfold armWiface
  by_cases h : isArmed a v = true
  · rw [if_pos h]
    exact h
  · rw [if_neg h]
    simp [isArmed]

theorem get_lastMarkOrder (s : UnsafePool) (v : wiface) :
    (s.get v).2.lastMarkOrder = s.lastMarkOrder := by
  rcases hl : lookupId s.weakrefs (wiface.id v) with _ | i <;>
    simp only [UnsafePool.get, hl]

theorem Mark_lastMarkOrder (s : UnsafePool) (v : wiface) :
    (s.Mark v).lastMarkOrder = s.lastMarkOrder + 1 :=
  get_lastMarkOrder { s with lastMarkOrder := s.lastMarkOrder + 1 } v

theorem addPendingGC_lastMarkOrder (s : UnsafePool) (v : wiface) :
    (s.addPendingGC v).lastMarkOrder = s.lastMarkOrder := by
  rcases hl : lookupId s.weakrefs (wiface.id v) with _ | i
  · simp only [UnsafePool.addPendingGC, hl]
  · simp only [UnsafePool.addPendingGC, hl]
    by_cases h : (getRef s i).status = wrStatus.wrResurrected
    · rw [if_pos h]
    · rw [if_neg h]

theorem Value_lastMarkOrder (s : UnsafePool) (i : Nat) :
    (s.Value i).2.lastMarkOrder = s.lastMarkOrder := by
  by_cases h : (getRef s i).status = wrStatus.wrDead
  · simp only [UnsafePool.Value, if_pos h]
  · simp only [UnsafePool.Value, if_neg h]

theorem ExtractDeadMarked_lastMarkOrder (s : UnsafePool) :
    s.ExtractDeadMarked.2.lastMarkOrder = s.lastMarkOrder := by
  by_cases h : s.pending = []
  · simp only [UnsafePool.ExtractDeadMarked, if_pos h]
  · simp only [UnsafePool.ExtractDeadMarked, if_neg h]

/-- If no registry entry still carries a mark, the extraction loop returns
its accumulator and changes nothing. -/
theorem extractAllLoop_nothing (entries : List (Nat × Nat)) (refs : List weakRef)
    (armed : List wiface) (acc : List (orderedVal wiface))
    (h : ∀ e ∈ entries, (refs.getD e.2 defaultRef).markOrder = 0) :
    extractAllLoop entries refs armed acc = (acc, refs, armed) := by
  induction entries with
  | nil => rfl
  | cons e0 rest ih =>
      rw [extractAllLoop]
      rw [if_neg (by rw [h e0 (List.mem_cons_self _ _)]; exact Nat.lt_irrefl 0)]
      exact ih (fun e he => h e (List.mem_cons_of_mem _ he))

/-- Concrete values used by witnesses and counterexamples.  `vA2` shares
`vA`'s data word (hence its identity token) but has another type word. -/
def vA : wiface := { typeWord := 1, dataWord := 10 }

def vB : wiface := { typeWord := 1, dataWord := 20 }

def vA2 : wiface := { typeWord := 2, dataWord := 10 }

/-
The claim theorems.
-/

theorem ExtractDeadMarked_nil (s : UnsafePool) (h : s.pending = []) :
    s.ExtractDeadMarked.1 = [] := by
  simp [UnsafePool.ExtractDeadMarked, if_pos h]

/-- C1: for every pool state, `ExtractPendingFinalize` (source
`ExtractDeadMarked`) returns exactly the values of the pending-finalize
queue sorted by strictly descending mark order, clears the queue, an
immediately repeated call returns the empty list, and after the call, along
any extraction-free trace, the queue holds exactly the entries enqueued by
that trace -- so the next call returns only values that arrived after this
one. -/
theorem extractDeadMarked_spec (s : UnsafePool)
    (hdist : s.pending.Pairwise (fun a b => a.order ≠ b.order)) :
    (∃ l, s.ExtractDeadMarked.1 = vals l ∧ l.Perm s.pending ∧
      l.Pairwise (fun a b => b.order < a.order)) ∧
    s.ExtractDeadMarked.2.pending = [] ∧
    s.ExtractDeadMarked.2.ExtractDeadMarked.1 = [] ∧
    (∀ es, noExtract es →
      (run s.ExtractDeadMarked.2 es).pending =
        reclaimedMarked s.ExtractDeadMarked.2 es) := by
  have hp := ExtractDeadMarked_pending s
  refine ⟨?_, hp, ?_, ?_⟩
  · by_cases h : s.pending = []
    · refine ⟨[], ?_, by rw [h], List.Pairwise.nil⟩
      simp [UnsafePool.ExtractDeadMarked, if_pos h, vals]
    · refine ⟨sortDesc s.pending, ?_, sortDesc_perm s.pending,
        sortDesc_pairwise_strict s.pending hdist⟩
      simp [UnsafePool.ExtractDeadMarked, if_neg h, runPrefinalizers]
  · exact ExtractDeadMarked_nil _ hp
  · intro es hes
    rw [run_pending_extends _ es hes, hp]
    simp

/-- Concrete state for the C1 witness: two pending values with distinct
mark orders. -/
def sC1 : UnsafePool :=
  { refs := [], weakrefs := [], armed := [],
    pending := [{ val := vA, order := 1 }, { val := vB, order := 2 }],
    lastMarkOrder := 2 }

theorem extractDeadMarked_spec_witness :
    sC1.pending.Pairwise (fun a b => a.order ≠ b.order) ∧
    (sC1.ExtractDeadMarked.1 = [vB, vA] ∧
      sC1.ExtractDeadMarked.2.pending = []) :=
  ⟨by decide,
   by decide,
   (extractDeadMarked_spec sC1 (by decide)).2.1⟩

theorem addPendingGC_resurrected_pending (s : UnsafePool) (v : wiface) (i : Nat)
    (hl : lookupId s.weakrefs (wiface.id v) = some i)
    (hst : (getRef s i).status = wrStatus.wrResurrected) :
    (s.addPendingGC v).pending = s.pending := by
  simp only [UnsafePool.addPendingGC, hl, if_pos hst]

theorem addPendingGC_unresurrected_pending (s : UnsafePool) (v : wiface) (i : Nat)
    (hl : lookupId s.weakrefs (wiface.id v) = some i)
    (hst : (getRef s i).status ≠ wrStatus.wrResurrected) :
    (s.addPendingGC v).pending =
      if 0 < (getRef s i).markOrder then
        s.pending ++ [{ val := v, order := (getRef s i).markOrder }]
      else s.pending := by
  simp only [UnsafePool.addPendingGC, hl, if_neg hst]

theorem Value_getRef (s : UnsafePool) (i : Nat)
    (hst : (getRef s i).status ≠ wrStatus.wrDead) (hi : i < s.refs.length) :
    getRef (s.Value i).2 i =
      { getRef s i with status := wrStatus.wrResurrected } := by
  simp only [UnsafePool.Value, if_neg hst]
  simp only [getRef]
  exact getD_set_eq _ _ _ _ hi

/-- C2: a reclamation callback on a resurrected weak ref resets it to
alive, re-arms the Go finalizer, enqueues nothing and leaves the registry
untouched; a following callback with no intervening `Value` enqueues the
(marked) value, while a following callback after another `Value` call again
enqueues nothing. -/
theorem addPendingGC_resurrected_spec (s : UnsafePool) (v : wiface) (i : Nat)
    (hl : lookupId s.weakrefs (wiface.id v) = some i)
    (hi : i < s.refs.length)
    (hst : (getRef s i).status = wrStatus.wrResurrected) :
    (s.addPendingGC v).pending = s.pending ∧
    getRef (s.addPendingGC v) i = { getRef s i with status := wrStatus.wrAlive } ∧
    isArmed (s.addPendingGC v).armed v = true ∧
    (s.addPendingGC v).weakrefs = s.weakrefs ∧
    (0 < (getRef s i).markOrder →
      ((s.addPendingGC v).addPendingGC v).pending =
        s.pending ++ [{ val := v, order := (getRef s i).markOrder }]) ∧
    (((s.addPendingGC v).Value i).2.addPendingGC v).pending = s.pending := by
  have h1 : s.addPendingGC v =
      { s with refs := s.refs.set i { getRef s i with status := wrStatus.wrAlive },
               armed := armWiface s.armed v } := by
    simp only [UnsafePool.addPendingGC, hl, if_pos hst]
  have hg1 : getRef (s.addPendingGC v) i =
      { getRef s i with status := wrStatus.wrAlive } := by
    rw [h1]
    simp only [getRef]
    exact getD_set_eq _ _ _ _ hi
  have hp1 : (s.addPendingGC v).pending = s.pending := by
    rw [h1]
  have hw1 : (s.addPendingGC v).weakrefs = s.weakrefs := by
    rw [h1]
  have hl1 : lookupId (s.addPendingGC v).weakrefs (wiface.id v) = some i := by
    rw [hw1]
    exact hl
  refine ⟨hp1, hg1, by rw [h1]; exact isArmed_armWiface s.armed v, hw1, ?_, ?_⟩
  · intro hmk
    have hst1 : (getRef (s.addPendingGC v) i).status ≠ wrStatus.wrResurrected := by
      simp [hg1]
    rw [addPendingGC_unresurrected_pending _ v i hl1 hst1]
    simp only [hg1]
    rw [if_pos hmk, hp1]
  · have hst1 : (getRef (s.addPendingGC v) i).status ≠ wrStatus.wrDead := by
      simp [hg1]
    have hi2 : i < (s.addPendingGC v).refs.length := by
      rw [h1]
      simpa [List.length_set] using hi
    have hg2 := Value_getRef (s.addPendingGC v) i hst1 hi2
    have hl2 : lookupId ((s.addPendingGC v).Value i).2.weakrefs (wiface.id v)
        = some i := by
      rw [Value_weakrefs, hw1]
      exact hl
    have hst2 : (getRef ((s.addPendingGC v).Value i).2 i).status
        = wrStatus.wrResurrected := by
      rw [hg2]
    rw [addPendingGC_resurrected_pending _ v i hl2 hst2, Value_pending, hp1]

/-- Concrete state for the C2 witness: one marked, resurrected weak ref
for `vA`. -/
def sC2 : UnsafePool :=
  { refs := [{ w := vA, markOrder := 1, status := wrStatus.wrResurrected }],
    weakrefs := [(10, 0)], armed := [vA], pending := [], lastMarkOrder := 1 }

theorem addPendingGC_resurrected_spec_witness :
    (lookupId sC2.weakrefs (wiface.id vA) = some 0 ∧ 0 < sC2.refs.length ∧
      (getRef sC2 0).status = wrStatus.wrResurrected) ∧
    (sC2.addPendingGC vA).pending = [] ∧
    ((sC2.addPendingGC vA).addPendingGC vA).pending = [{ val := vA, order := 1 }] :=
  ⟨⟨by decide, by decide, by decide⟩,
   (addPendingGC_resurrected_spec sC2 vA 0 (by decide) (by decide) (by decide)).1,
   (addPendingGC_resurrected_spec sC2 vA 0 (by decide) (by decide)
     (by decide)).2.2.2.2.1 (by decide)⟩

/-- C5 (amended): the reclamation callback's enqueue removes the value's
registry entry in the same atomic step, and along any trace a token is
enqueued at most `registered + (number of its Get/Mark events)` times --
at most once per registration; in a fresh pool nothing is registered.
Re-registration via Get/Mark after extraction can enqueue a value again,
so "at most once across its entire history" holds exactly when the value
is not re-registered. -/
theorem pending_enqueue_once_per_registration (t : Nat) (s : UnsafePool)
    (es : List Event) (v : wiface) :
    ((s.addPendingGC v).pending ≠ s.pending →
      lookupId (s.addPendingGC v).weakrefs (wiface.id v) = none) ∧
    enqueueCount t s es ≤ registered t s + getMarkCount t es ∧
    registered t NewUnsafePool = 0 := by
  refine ⟨?_, enqueueCount_le t s es, rfl⟩
  intro hne
  rcases addPendingGC_cases s v with ⟨hp, -⟩ | ⟨-, hw, -⟩
  · exact absurd hp hne
  · rw [hw]
    exact lookupId_deleteId_self _ _

/-- Concrete state for the C5 witness: `vA` registered, alive and marked,
so the next callback enqueues it and removes its registry entry. -/
def sC5 : UnsafePool :=
  { refs := [{ w := vA, markOrder := 1, status := wrStatus.wrAlive }],
    weakrefs := [(10, 0)], armed := [vA], pending := [], lastMarkOrder := 1 }

theorem pending_enqueue_once_witness :
    (sC5.addPendingGC vA).pending ≠ sC5.pending ∧
    lookupId (sC5.addPendingGC vA).weakrefs (wiface.id vA) = none ∧
    enqueueCount 10 NewUnsafePool [Event.mark vA, Event.gcReclaim vA] ≤
      registered 10 NewUnsafePool +
        getMarkCount 10 [Event.mark vA, Event.gcReclaim vA] :=
  ⟨by decide,
   (pending_enqueue_once_per_registration 10 sC5 [] vA).1 (by decide),
   (pending_enqueue_once_per_registration 10 NewUnsafePool
      [Event.mark vA, Event.gcReclaim vA] vA).2.1⟩

/-- C5 counterexample: from a fresh pool, re-marking a value after its
enqueue and extraction lets the host GC enqueue it a second time -- the
value is enqueued twice across its history, refuting "at most once". -/
theorem pending_enqueue_twice_counterexample :
    enqueueCount 10 NewUnsafePool
      [Event.mark vA, Event.gcReclaim vA, Event.extractDead,
       Event.mark vA, Event.gcReclaim vA] = 2 ∧ ¬ (2 ≤ 1) := by decide

/-- C7: `get` (hence `Get`) is idempotent -- a second call returns the same
weak ref index and leaves the whole pool state (the handle's mark order and
status included) unchanged. -/
theorem get_idempotent (s : UnsafePool) (v : wiface) :
    (s.get v).2.get v = ((s.get v).1, (s.get v).2) := by
  rcases hl0 : lookupId s.weakrefs (wiface.id v) with _ | i
  · have h1 : s.get v = (s.refs.length,
        { s with
          refs := s.refs ++ [{ w := v, markOrder := 0, status := wrStatus.wrAlive }],
          weakrefs := (wiface.id v, s.refs.length) :: s.weakrefs,
          armed := armWiface s.armed v }) := by
      simp only [UnsafePool.get, hl0]
    rw [h1]
    simp [UnsafePool.get, lookupId]
  · have h1 : s.get v = (i, s) := by
      simp only [UnsafePool.get, hl0]
    rw [h1]
    exact h1

theorem step_lastMarkOrder_mono (s : UnsafePool) (e : Event) :
    s.lastMarkOrder ≤ (step s e).lastMarkOrder := by
  cases e with
  | get v => exact le_of_eq (get_lastMarkOrder s v).symm
  | mark v =>
      rw [show step s (Event.mark v) = s.Mark v from rfl, Mark_lastMarkOrder]
      exact Nat.le_succ _
  | valueCall i => exact le_of_eq (Value_lastMarkOrder s i).symm
  | gcReclaim v =>
      by_cases h : isArmed s.armed v = true
      · simp only [step, if_pos h]
        exact le_of_eq
          (Eq.symm (addPendingGC_lastMarkOrder
            { s with armed := disarmWiface s.armed v } v))
      · simp only [step, if_neg h]
        exact Nat.le_refl _
  | extractDead => exact le_of_eq (ExtractDeadMarked_lastMarkOrder s).symm
  | extractAll => exact Nat.le_refl _

theorem Mark_assigns (s : UnsafePool) (v : wiface) (hwf : wf s) :
    ∃ i, lookupId (s.Mark v).weakrefs (wiface.id v) = some i ∧
      (getRef (s.Mark v) i).markOrder = s.lastMarkOrder + 1 := by
  have hwf1 : wf { s with lastMarkOrder := s.lastMarkOrder + 1 } := hwf
  have hl := get_lookup_self { s with lastMarkOrder := s.lastMarkOrder + 1 } v
  have hwf2 := wf_get v hwf1
  have hmem := lookupId_mem _ _ _ hl
  have hb := (hwf2.2 _ hmem).1
  refine ⟨(UnsafePool.get { s with lastMarkOrder := s.lastMarkOrder + 1 } v).1,
    hl, ?_⟩
  simp only [UnsafePool.Mark, setMarkOrder, getRef]
  rw [getD_set_eq _ _ _ _ hb]

/-- C6: the mark counter starts at 0, every `Mark` increments it by one and
assigns the new value as the marked value's mark order (overwriting any
previous one), no event ever decreases the counter, and remarking A after
marking B moves A ahead of B in the next extraction. -/
theorem mark_order_monotone_spec (s : UnsafePool) (v : wiface) (e : Event)
    (hwf : wf s) :
    NewUnsafePool.lastMarkOrder = 0 ∧
    (s.Mark v).lastMarkOrder = s.lastMarkOrder + 1 ∧
    s.lastMarkOrder ≤ (step s e).lastMarkOrder ∧
    (∃ i, lookupId (s.Mark v).weakrefs (wiface.id v) = some i ∧
      (getRef (s.Mark v) i).markOrder = s.lastMarkOrder + 1) ∧
    (run NewUnsafePool [Event.mark vA, Event.mark vB, Event.mark vA,
      Event.gcReclaim vA, Event.gcReclaim vB]).ExtractDeadMarked.1 = [vA, vB] :=
  ⟨rfl, Mark_lastMarkOrder s v, step_lastMarkOrder_mono s e, Mark_assigns s v hwf,
   by decide⟩

theorem mark_order_monotone_spec_witness :
    wf NewUnsafePool ∧
    (NewUnsafePool.Mark vA).lastMarkOrder = NewUnsafePool.lastMarkOrder + 1 :=
  ⟨by decide,
   (mark_order_monotone_spec NewUnsafePool vA (Event.mark vB) (by decide)).2.1⟩

/-- C8 (amended): in a well-formed pool, `Get(V).Value()` returns V itself
immediately after the call, provided any existing registry entry for V's
identity token was registered with V itself; this holds in particular
whenever V's token is fresh.  (With a colliding token -- two values sharing
a data word -- the handle returns the first-registered value instead, see
the counterexample.) -/
theorem get_value_roundtrip (s : UnsafePool) (v : wiface) (hwf : wf s)
    (hv : ∀ i, lookupId s.weakrefs (wiface.id v) = some i → (getRef s i).w = v) :
    ((s.get v).2.Value (s.get v).1).1 = some v := by
  rcases hl : lookupId s.weakrefs (wiface.id v) with _ | i
  · have h1 : s.get v = (s.refs.length,
        { s with
          refs := s.refs ++ [{ w := v, markOrder := 0, status := wrStatus.wrAlive }],
          weakrefs := (wiface.id v, s.refs.length) :: s.weakrefs,
          armed := armWiface s.armed v }) := by
      simp only [UnsafePool.get, hl]
    rw [h1]
    simp only [UnsafePool.Value, getRef, getD_append_len]
    simp
  · have h1 : s.get v = (i, s) := by
      simp only [UnsafePool.get, hl]
    rw [h1]
    have hmem := lookupId_mem _ _ _ hl
    have hst := (hwf.2 _ hmem).2.2
    have hw := hv i hl
    simp only [UnsafePool.Value, if_neg hst, hw]

theorem get_value_roundtrip_witness :
    (wf NewUnsafePool ∧
      ∀ i, lookupId NewUnsafePool.weakrefs (wiface.id vA) = some i →
        (getRef NewUnsafePool i).w = vA) ∧
    ((NewUnsafePool.get vA).2.Value (NewUnsafePool.get vA).1).1 = some vA :=
  ⟨⟨by decide, by decide⟩,
   get_value_roundtrip NewUnsafePool vA (by decide) (by decide)⟩

/-- C8 counterexample: `vA2` shares `vA`'s data word but not its type word.
After `Get(vA)`, a `Get(vA2)` returns the canonical handle for the shared
token, and its `Value()` yields `vA`, not `vA2` -- so `Get(V).Value() = V`
fails for `V = vA2` even though `vA2` is a live value. -/
theorem get_value_roundtrip_counterexample :
    (((NewUnsafePool.get vA).2.get vA2).2.Value
        ((NewUnsafePool.get vA).2.get vA2).1).1 = some vA ∧ vA ≠ vA2 := by
  decide

/-- C10: the registry key is only the data word of the interface value (the
type word is discarded); for two values sharing a data word, the second
`get` returns the first value's weak ref unchanged, and `Value()`
reconstructs the value registered first, dynamic type included. -/
theorem identity_token_data_word (s : UnsafePool) (v1 v2 : wiface)
    (hid : wiface.id v1 = wiface.id v2)
    (hfresh : lookupId s.weakrefs (wiface.id v1) = none) :
    wiface.id v1 = v1.dataWord ∧
    (s.get v1).2.get v2 = ((s.get v1).1, (s.get v1).2) ∧
    ((s.get v1).2.Value (s.get v1).1).1 = some v1 := by
  have h1 : s.get v1 = (s.refs.length,
      { s with
        refs := s.refs ++ [{ w := v1, markOrder := 0, status := wrStatus.wrAlive }],
        weakrefs := (wiface.id v1, s.refs.length) :: s.weakrefs,
        armed := armWiface s.armed v1 }) := by
    simp only [UnsafePool.get, hfresh]
  refine ⟨rfl, ?_, ?_⟩
  · rw [h1]
    simp only [UnsafePool.get, lookupId]
    rw [if_pos hid]
  · rw [h1]
    simp only [UnsafePool.Value, getRef, getD_append_len]
    simp

theorem identity_token_data_word_witness :
    (wiface.id vA = wiface.id vA2 ∧
      lookupId NewUnsafePool.weakrefs (wiface.id vA) = none) ∧
    (NewUnsafePool.get vA).2.get vA2 =
      ((NewUnsafePool.get vA).1, (NewUnsafePool.get vA).2) ∧
    ((NewUnsafePool.get vA).2.Value (NewUnsafePool.get vA).1).1 = some vA :=
  ⟨⟨by decide, by decide⟩,
   (identity_token_data_word NewUnsafePool vA vA2 (by decide) (by decide)).2⟩

theorem ExtractAllMarked_empty (s : UnsafePool)
    (hz : ∀ e ∈ s.weakrefs, (getRef s e.2).markOrder = 0)
    (hp : s.pending = []) : s.ExtractAllMarked.1 = [] := by
  have hn := extractAllLoop_nothing s.weakrefs s.refs s.armed s.pending
    (fun e he => hz e he)
  show runPrefinalizers (vals (sortDesc
    (extractAllLoop s.weakrefs s.refs s.armed s.pending).1)) = []
  simp only [hn]
  simp only [hp]
  rfl

/-- C4: `ExtractAllMarkedFinalize` (source `ExtractAllMarked`) returns
exactly the pending values together with every registered value that still
carries a mark, sorted by descending mark order; afterwards the pending
queue is drained and every registered ref's mark is cleared, an immediately
repeated call returns the empty list, and no later extraction along any
trace ever returns a value of any token again unless that token is
re-marked. -/
theorem extractAllMarked_spec (s : UnsafePool) (hwf : wf s) :
    (∀ v, v ∈ s.ExtractAllMarked.1 ↔
      ((∃ ov ∈ s.pending, ov.val = v) ∨
       ∃ e ∈ s.weakrefs, 0 < (getRef s e.2).markOrder ∧ (getRef s e.2).w = v)) ∧
    (∃ l, s.ExtractAllMarked.1 = vals l ∧
      l.Pairwise (fun a b => b.order ≤ a.order)) ∧
    s.ExtractAllMarked.2.pending = [] ∧
    (∀ e ∈ s.ExtractAllMarked.2.weakrefs,
      (getRef s.ExtractAllMarked.2 e.2).markOrder = 0) ∧
    s.ExtractAllMarked.2.ExtractAllMarked.1 = [] ∧
    (∀ t es, (∀ e ∈ es, ¬ marksTok t e) →
      ∀ v ∈ traceOutputs s.ExtractAllMarked.2 es, v.dataWord ≠ t) := by
  have hzero : ∀ e ∈ s.weakrefs,
      ((extractAllLoop s.weakrefs s.refs s.armed s.pending).2.1.getD e.2
        defaultRef).markOrder = 0 :=
    extractAllLoop_zeroes s.weakrefs s.refs s.armed s.pending
  have hclean : ∀ t, cleanTok t s.ExtractAllMarked.2 := by
    intro t
    constructor
    · intro e he hkey
      exact hzero e he
    · intro ov hov
      exact absurd hov (List.not_mem_nil ov)
  refine ⟨?_, ?_, rfl, ?_, ?_, ?_⟩
  · intro v
    constructor
    · exact fun hv => ExtractAllMarked_out s v hv
    · intro hv
      rcases hv with ⟨ov, hov, hval⟩ | ⟨e, he, hm, hval⟩
      · rw [← hval]
        exact ExtractAllMarked_out_pending s ov hov
      · rw [← hval]
        exact ExtractAllMarked_out_complete s hwf e he hm
  · exact ⟨sortDesc (extractAllLoop s.weakrefs s.refs s.armed s.pending).1, rfl,
      sortDesc_pairwise _⟩
  · intro e he
    exact hzero e he
  · exact ExtractAllMarked_empty s.ExtractAllMarked.2
      (fun e he => hzero e he) rfl
  · intro t es hm
    exact traceOutputs_avoid t s.ExtractAllMarked.2 es
      (wf_ExtractAllMarked hwf) (hclean t) hm

/-- Concrete state for the C4 witness: `vA` marked and registered, `vB`'s
entry unmarked, one pending entry for `vB`. -/
def sC4 : UnsafePool :=
  { refs := [{ w := vA, markOrder := 2, status := wrStatus.wrAlive },
             { w := vB, markOrder := 0, status := wrStatus.wrAlive }],
    weakrefs := [(10, 0), (20, 1)], armed := [vA],
    pending := [{ val := vB, order := 1 }], lastMarkOrder := 2 }

theorem extractAllMarked_spec_witness :
    wf sC4 ∧
    (sC4.ExtractAllMarked.1 = [vA, vB] ∧
      sC4.ExtractAllMarked.2.ExtractAllMarked.1 = []) :=
  ⟨by decide,
   by decide,
   (extractAllMarked_spec sC4 (by decide)).2.2.2.2.1⟩

theorem count_vals_sortDesc {α : Type} [DecidableEq α]
    (l : List (orderedVal α)) (v : α) :
    (vals (sortDesc l)).count v = (vals l).count v := by
  unfold vals
  exact ((sortDesc_perm l).map (fun ov => ov.val)).count_eq v

/-- C3 (spec-modelled flagged pool): `Mark(V, flags)` unions the given
flags into the existing handle's flags while overwriting its mark order;
and after `Mark(V, Finalize ||| Release)` and V's reclamation, V appears
exactly once in `ExtractPendingFinalize` and exactly once in
`ExtractPendingRelease`. -/
theorem mark_flags_union_spec (s : SpecPool) (v : SpecVal)
    (hid : v.heapIdentity = true)
    (hfresh : lookupId s.registry v.token = none)
    (hpf : ∀ ov ∈ s.pendingFinalize, ov.val ≠ v)
    (hpr : ∀ ov ∈ s.pendingRelease, ov.val ≠ v) :
    (∀ s2 : SpecPool, ∀ f : Nat, ∀ r0 : SpecRef,
      lookupId s2.registry v.token = some r0 →
      lookupId (s2.Mark v f).registry v.token =
        some { r0 with markOrder := s2.lastMarkOrder + 1,
                       flags := Nat.lor r0.flags f }) ∧
    ((s.Mark v (Nat.lor Finalize Release)).reclaim
        v).ExtractPendingFinalize.1.count v = 1 ∧
    ((s.Mark v (Nat.lor Finalize Release)).reclaim
        v).ExtractPendingRelease.1.count v = 1 := by
  have hnotfalse : ¬ v.heapIdentity = false := by
    rw [hid]
    simp
  refine ⟨?_, ?_, ?_⟩
  · intro s2 f r0 h0
    simp only [SpecPool.Mark, if_neg hnotfalse, h0, lookupId, if_pos rfl]
    simp
  all_goals
    have hm : s.Mark v (Nat.lor Finalize Release) =
        { s with
          lastMarkOrder := s.lastMarkOrder + 1,
          registry := (v.token,
            { v := v, flags := Nat.lor Finalize Release,
              markOrder := s.lastMarkOrder + 1, status := wrStatus.wrAlive }) ::
            deleteId s.registry v.token,
          armed := if v ∈ s.armed then s.armed else v :: s.armed } := by
      simp only [SpecPool.Mark, if_neg hnotfalse, hfresh]
    have hlook : lookupId (s.Mark v (Nat.lor Finalize Release)).registry v.token
        = some { v := v, flags := Nat.lor Finalize Release,
                 markOrder := s.lastMarkOrder + 1, status := wrStatus.wrAlive } := by
      rw [hm]
      simp [lookupId]
    have hrec : (s.Mark v (Nat.lor Finalize Release)).reclaim v =
        { s.Mark v (Nat.lor Finalize Release) with
          pendingFinalize := (s.Mark v (Nat.lor Finalize Release)).pendingFinalize
            ++ [{ val := v, order := s.lastMarkOrder + 1 }],
          pendingRelease := (s.Mark v (Nat.lor Finalize Release)).pendingRelease
            ++ [{ val := v, order := s.lastMarkOrder + 1 }],
          registry := deleteId (s.Mark v (Nat.lor Finalize Release)).registry
            v.token } := by
      simp only [SpecPool.reclaim, hlook]
      rw [if_neg (by simp)]
      simp [Finalize, Release]
    have hpf2 : (s.Mark v (Nat.lor Finalize Release)).pendingFinalize
        = s.pendingFinalize := by
      rw [hm]
    have hpr2 : (s.Mark v (Nat.lor Finalize Release)).pendingRelease
        = s.pendingRelease := by
      rw [hm]
  · show (vals (sortDesc ((s.Mark v (Nat.lor Finalize Release)).reclaim
      v).pendingFinalize)).count v = 1
    rw [count_vals_sortDesc]
    rw [show ((s.Mark v (Nat.lor Finalize Release)).reclaim v).pendingFinalize =
      s.pendingFinalize ++ [{ val := v, order := s.lastMarkOrder + 1 }] from by
        rw [hrec]
        simp only [hpf2]]
    simp only [vals, List.map_append, List.count_append]
    rw [List.count_eq_zero.mpr (by
      intro hmem
      rcases List.mem_map.mp hmem with ⟨ov, hov, hval⟩
      exact hpf ov hov hval)]
    simp
  · show (vals (sortDesc ((s.Mark v (Nat.lor Finalize Release)).reclaim
      v).pendingRelease)).count v = 1
    rw [count_vals_sortDesc]
    rw [show ((s.Mark v (Nat.lor Finalize Release)).reclaim v).pendingRelease =
      s.pendingRelease ++ [{ val := v, order := s.lastMarkOrder + 1 }] from by
        rw [hrec]
        simp only [hpr2]]
    simp only [vals, List.map_append, List.count_append]
    rw [List.count_eq_zero.mpr (by
      intro hmem
      rcases List.mem_map.mp hmem with ⟨ov, hov, hval⟩
      exact hpr ov hov hval)]
    simp

/-- Concrete heap value for the spec-pool witnesses. -/
def vC : SpecVal := { token := 5, heapIdentity := true }

/-- Concrete non-heap value (e.g. a small integer) for the C9 witness. -/
def vD : SpecVal := { token := 7, heapIdentity := false }

theorem mark_flags_union_spec_witness :
    (vC.heapIdentity = true ∧ lookupId SpecPool.new.registry vC.token = none) ∧
    ((SpecPool.new.Mark vC (Nat.lor Finalize Release)).reclaim
        vC).ExtractPendingFinalize.1.count vC = 1 ∧
    ((SpecPool.new.Mark vC (Nat.lor Finalize Release)).reclaim
        vC).ExtractPendingRelease.1.count vC = 1 :=
  ⟨⟨by decide, by decide⟩,
   (mark_flags_union_spec SpecPool.new vC (by decide) (by decide)
     (by decide) (by decide)).2⟩

/-- C9 (spec-modelled): `Mark` on a value lacking heap identity is a silent
no-op -- the pool state is unchanged, nothing is registered, and (as long
as the value sits in no pending queue) no extraction returns it. -/
theorem mark_no_heap_identity (s : SpecPool) (v : SpecVal) (f : Nat)
    (hid : v.heapIdentity = false)
    (hpf : ∀ ov ∈ s.pendingFinalize, ov.val ≠ v)
    (hpr : ∀ ov ∈ s.pendingRelease, ov.val ≠ v) :
    s.Mark v f = s ∧
    v ∉ (s.Mark v f).ExtractPendingFinalize.1 ∧
    v ∉ (s.Mark v f).ExtractPendingRelease.1 := by
  have h1 : s.Mark v f = s := by
    simp only [SpecPool.Mark, if_pos hid]
  refine ⟨h1, ?_, ?_⟩
  · rw [h1]
    intro hv
    rcases mem_vals.mp hv with ⟨ov, hov, hval⟩
    exact hpf ov ((sortDesc_perm _).mem_iff.mp hov) hval
  · rw [h1]
    intro hv
    rcases mem_vals.mp hv with ⟨ov, hov, hval⟩
    exact hpr ov ((sortDesc_perm _).mem_iff.mp hov) hval

theorem mark_no_heap_identity_witness :
    vD.heapIdentity = false ∧
    SpecPool.new.Mark vD (Nat.lor Finalize Release) = SpecPool.new :=
  ⟨by decide,
   (mark_no_heap_identity SpecPool.new vD (Nat.lor Finalize Release)
     (by decide) (by decide) (by decide)).1⟩
